import Mathlib

/-!
# Verification of the Emenda AST diff engine

A shallow embedding of the Go sources of `github.com/emenda-labs/emenda`
(the `drivers/golang/astdiff` package and its data model), together with
proofs about the six-pass diff algorithm `DiffExports`, the Levenshtein
distance implementation, and the source-root locator.

Modelling conventions, used throughout:

* Go `map[K]V` values are modelled as association lists (`List (K × V)`)
  with insert-overwrite (`ainsert`) keeping the position of an existing
  key and appending new keys; iteration is list order, i.e. insertion
  order.  Go leaves hash-map iteration order unspecified; insertion order
  is one admissible execution.  Where a claim depends on that order
  (pass 6 of the diff), a variant taking the order as an explicit
  parameter is also defined (`diffState.leftoversOrd`).
* Go `map[K]struct{}` sets are modelled as duplicate-free `List K` with
  `sinsert` / `serase`.
* Go strings are modelled as Lean `String`; `len` and byte indexing are
  modelled by character count and character indexing, which agree on the
  ASCII identifiers this engine processes.
* Go `float64` similarity scores are modelled by exact rationals `ℚ`;
  the thresholds 0.7, 0.8, 0.85 become 7/10, 4/5, 17/20.
* Reading a missing key from a Go map yields the zero value; this is
  modelled by `Option.getD` with the zero value of the record type.
-/

set_option maxHeartbeats 4000000

namespace Emenda

/-! ## Association-list model of Go maps -/

section AssocHelpers

variable {κ : Type} [DecidableEq κ] {ν : Type}

/-- Lookup in an association list (Go `m[k]` with comma-ok). -/
def alookup : List (κ × ν) → κ → Option ν
  | [], _ => none
  | (k, v) :: m, k' => if k' = k then some v else alookup m k'

/-- Insert-overwrite in an association list (Go `m[k] = v`): replaces the
binding in place when the key is present, appends it otherwise. -/
def ainsert : List (κ × ν) → κ → ν → List (κ × ν)
  | [], k, v => [(k, v)]
  | (k₀, v₀) :: m, k, v => if k = k₀ then (k, v) :: m else (k₀, v₀) :: ainsert m k v

/-- Set insert (Go `s[k] = struct{}{}`). -/
def sinsert (l : List κ) (k : κ) : List κ := if k ∈ l then l else l ++ [k]

/-- Set delete (Go `delete(s, k)`). -/
def serase (l : List κ) (k : κ) : List κ := l.filter (fun x => x ≠ k)

end AssocHelpers

/-! ## Data model (`drivers/golang/symbols`, `core/changespec`) -/

/-- Go: `type SymbolKind string` (drivers/golang/symbols). -/
abbrev SymbolKind := String

/-- Go constant `SymbolFunc SymbolKind = "func"`. -/
def SymbolFunc : SymbolKind := "func"

/-- Go constant `SymbolType SymbolKind = "type"`. -/
def SymbolType : SymbolKind := "type"

/-- Go constant `SymbolMethod SymbolKind = "method"`. -/
def SymbolMethod : SymbolKind := "method"

/-- Go constant `SymbolField SymbolKind = "field"`. -/
def SymbolField : SymbolKind := "field"

/-- Go constant `SymbolConst SymbolKind = "const"`. -/
def SymbolConst : SymbolKind := "const"

/-- Go constant `SymbolVar SymbolKind = "var"`. -/
def SymbolVar : SymbolKind := "var"

/-- Go constant `SymbolInterface SymbolKind = "interface"`. -/
def SymbolInterface : SymbolKind := "interface"

/-- The values of the `SymbolKind` constant block, in declaration order. -/
def symbolKindValues : List String :=
  [SymbolFunc, SymbolType, SymbolMethod, SymbolField, SymbolConst, SymbolVar, SymbolInterface]

/-- Go struct `symbols.Symbol` (fields Name, Kind, Package, Receiver, Signature). -/
structure Symbol where
  name : String
  kind : SymbolKind
  package : String
  receiver : String
  signature : String
deriving DecidableEq

/-- Go zero value of `Symbol`. -/
instance : Inhabited Symbol := ⟨⟨"", "", "", "", ""⟩⟩

/-- Go struct `symbols.Symbols` (Module, Version, Entries). -/
structure Symbols where
  module : String
  version : String
  entries : List Symbol
deriving DecidableEq

/-- Go: `type ChangeKind string` (core/changespec). -/
abbrev ChangeKind := String

/-- Go constant `ChangeKindRenamed ChangeKind = "renamed"`. -/
def ChangeKindRenamed : ChangeKind := "renamed"

/-- Go constant `ChangeKindSignatureChanged ChangeKind = "signature_changed"`. -/
def ChangeKindSignatureChanged : ChangeKind := "signature_changed"

/-- Go constant `ChangeKindRemoved ChangeKind = "removed"`. -/
def ChangeKindRemoved : ChangeKind := "removed"

/-- Go constant `ChangeKindTypeChanged ChangeKind = "type_changed"`. -/
def ChangeKindTypeChanged : ChangeKind := "type_changed"

/-- Go constant `ChangeKindPackageMoved ChangeKind = "package_moved"`. -/
def ChangeKindPackageMoved : ChangeKind := "package_moved"

/-- Modelled from the spec: the `Confidence` enumeration used by
`core/changespec.Change`.  Its Go declaration is not among the provided
sources (diff.go references `changespec.ConfidenceHigh` etc.); per spec §3
it is the closed lower-case enumeration high / medium / low. -/
abbrev Confidence := String

/-- Modelled from the spec: `ConfidenceHigh = "high"`. -/
def ConfidenceHigh : Confidence := "high"

/-- Modelled from the spec: `ConfidenceMedium = "medium"`. -/
def ConfidenceMedium : Confidence := "medium"

/-- Modelled from the spec: `ConfidenceLow = "low"`. -/
def ConfidenceLow : Confidence := "low"

/-- Go struct `changespec.Change`.  Field defaults are the Go zero values
used when a composite literal omits a field.  The `confidence` field is on
the real `Change` struct (diff.go sets it); its type is the spec-modelled
`Confidence` above. -/
structure Change where
  kind : ChangeKind
  symbol : String
  package : String
  oldSignature : String := ""
  newSignature : String := ""
  newName : String := ""
  newPackage : String := ""
  confidence : Confidence := ""
deriving DecidableEq

/-- Go struct `symbolKey` (astdiff): pkg, kind, name. -/
structure symbolKey where
  pkg : String
  kind : SymbolKind
  name : String
deriving DecidableEq

instance : Inhabited symbolKey := ⟨⟨"", "", ""⟩⟩

/-- Go struct `funcSignature` (astdiff/signature.go): params, results. -/
structure funcSignature where
  params : List String := []
  results : List String := []
deriving DecidableEq

instance : Inhabited funcSignature := ⟨{}⟩

/-- Go: `type FuncSigMap map[symbolKey]funcSignature`. -/
abbrev FuncSigMap := List (symbolKey × funcSignature)

/-! ## Thresholds (constants at the top of diff.go; floats become `ℚ`) -/

/-- Go constant `MinNameSimilarity = 0.7`. -/
def MinNameSimilarity : ℚ := 7 / 10

/-- Go constant `MinParamOverlap = 0.8`. -/
def MinParamOverlap : ℚ := 4 / 5

/-- Go constant `ShortNameLength = 4`. -/
def ShortNameLength : Nat := 4

/-- Go constant `ShortNameMinSimilarity = 0.85`. -/
def ShortNameMinSimilarity : ℚ := 17 / 20

/-! ## Levenshtein distance (diff.go `levenshteinDistance`) -/

/-- Inner loop (`for j := 1; j <= lb; j++`) of the two-row DP: given the
current character `x` of `a`, the remaining characters of `b`, the
remaining tail of the previous row starting at `prev[j-1]`, and the value
`curr[j-1]`, produce the values `curr[j], curr[j+1], …`. -/
def levStep (x : Char) : List Char → List Nat → Nat → List Nat
  | y :: ys, p0 :: p1 :: ps, cprev =>
    let cost : Nat := if x = y then 0 else 1
    let del := p1 + 1
    let ins := cprev + 1
    let sub := p0 + cost
    let v := Nat.min del (Nat.min ins sub)
    v :: levStep x ys (p1 :: ps) v
  | _, _, _ => []

/-- Outer loop (`for i := 1; i <= la; i++`) of the two-row DP: fold over
the characters of `a`, carrying the previous row and the row index. -/
def levLoop (b : List Char) : List Char → List Nat → Nat → List Nat
  | [], prev, _ => prev
  | x :: xs, prev, i => levLoop b xs (i :: levStep x b prev i) (i + 1)

/-- Go `levenshteinDistance` on character lists: early returns for empty
inputs, then the two-row DP, returning `prev[lb]`. -/
def levenshteinChars (a b : List Char) : Nat :=
  if a.isEmpty then b.length
  else if b.isEmpty then a.length
  else (levLoop b a (List.range (b.length + 1)) 1).getD b.length 0

/-- Go `levenshteinDistance(a, b string) int`. -/
def levenshteinDistance (a b : String) : Nat := levenshteinChars a.data b.data

/-- Go `nameSimilarity`: normalized Levenshtein similarity in `[0, 1]`. -/
def nameSimilarity (a b : String) : ℚ :=
  if a.length = 0 ∧ b.length = 0 then 1
  else 1 - (levenshteinDistance a b : ℚ) / ((Nat.max a.length b.length : Nat) : ℚ)

/-! ## Parameter overlap (diff.go `paramOverlap`, first listing) -/

/-- One `aSet[t]++` step of the multiset-count maps in `paramOverlap`. -/
def countInc (m : List (String × Nat)) (t : String) : List (String × Nat) :=
  ainsert m t ((alookup m t).getD 0 + 1)

/-- Go `paramOverlap`: multiset Jaccard of params-plus-results, with the
vacuous cases returning 1.0. -/
def paramOverlap (a b : funcSignature) : ℚ :=
  let totalA := a.params.length + a.results.length
  let totalB := b.params.length + b.results.length
  if totalA = 0 ∧ totalB = 0 then 1
  else
    let aSet := a.results.foldl countInc (a.params.foldl countInc [])
    let bSet := b.results.foldl countInc (b.params.foldl countInc [])
    let iu := aSet.foldl (fun (acc : Nat × Nat) kv =>
      let bc := (alookup bSet kv.1).getD 0
      (acc.1 + Nat.min kv.2 bc, acc.2 + Nat.max kv.2 bc)) (0, 0)
    let union := bSet.foldl (fun (u : Nat) kv =>
      if (alookup aSet kv.1).isSome then u else u + kv.2) iu.2
    if union = 0 then 1 else (iu.1 : ℚ) / (union : ℚ)

/-! ## Diff engine state (diff.go, first listing: set-based state) -/

/-- Go struct `diffState`. -/
structure diffState where
  oldByKey : List (symbolKey × Symbol)
  newByKey : List (symbolKey × Symbol)
  unmatchedOldSet : List symbolKey
  unmatchedNewSet : List symbolKey
  oldSigs : FuncSigMap
  newSigs : FuncSigMap
  typeRenames : List (String × String)
  changes : List Change

/-- Go struct `nameKey` (secondary index for cross-kind detection). -/
structure nameKey where
  pkg : String
  name : String
deriving DecidableEq

/-- Go struct `sigGroupKey` (composite grouping key for Pass 3). -/
structure sigGroupKey where
  sig : String
  kind : SymbolKind
  pkg : String
deriving DecidableEq

/-- Go struct `scoredPair` (candidate fuzzy match with composite score). -/
structure scoredPair where
  oldKey : symbolKey
  newKey : symbolKey
  score : ℚ
  oldName : String
deriving DecidableEq

/-- The `(Package, Kind, Name)` key of a symbol, as built in `newDiffState`. -/
def symKeyOf (sym : Symbol) : symbolKey := ⟨sym.package, sym.kind, sym.name⟩

/-- The `oldByKey` / `newByKey` index built by the loop in `newDiffState`. -/
def buildByKey (es : List Symbol) : List (symbolKey × Symbol) :=
  es.foldl (fun m sym => ainsert m (symKeyOf sym) sym) []

/-- The unmatched-key set built by the same loop in `newDiffState` (the Go
loop fills the index and the set together; the two folds are that single
loop split into its two independent updates). -/
def buildKeySet (es : List Symbol) : List symbolKey :=
  es.foldl (fun s sym => sinsert s (symKeyOf sym)) []

/-- Go `newDiffState`. -/
def newDiffState (old new : Symbols) (oldSigs newSigs : FuncSigMap) : diffState where
  oldByKey := buildByKey old.entries
  newByKey := buildByKey new.entries
  unmatchedOldSet := buildKeySet old.entries
  unmatchedNewSet := buildKeySet new.entries
  oldSigs := oldSigs
  newSigs := newSigs
  typeRenames := []
  changes := []

/-- Go `(*diffState).markMatched`. -/
def diffState.markMatched (s : diffState) (oldKey newKey : symbolKey) : diffState :=
  { s with unmatchedOldSet := serase s.unmatchedOldSet oldKey
           unmatchedNewSet := serase s.unmatchedNewSet newKey }

/-- Go `(*diffState).emit`. -/
def diffState.emit (s : diffState) (c : Change) : diffState :=
  { s with changes := s.changes ++ [c] }

/-- Go `(*diffState).unmatchedOld` (snapshot slice of the unmatched set). -/
def diffState.unmatchedOld (s : diffState) : List symbolKey := s.unmatchedOldSet

/-- Go `(*diffState).unmatchedNew`. -/
def diffState.unmatchedNew (s : diffState) : List symbolKey := s.unmatchedNewSet

/-- Pass 1 (`exactMatch`): silently consume keys present on both sides
with identical signature. -/
def diffState.exactMatch (s : diffState) : diffState :=
  s.unmatchedOldSet.foldl (fun s key =>
    match alookup s.newByKey key with
    | none => s
    | some newSym =>
      let oldSym := (alookup s.oldByKey key).getD default
      if oldSym.signature = newSym.signature then s.markMatched key key else s) s

/-- Pass 2, Part A of `changed`: same key, different signature. -/
def diffState.changedPartA (s : diffState) : diffState :=
  s.unmatchedOld.foldl (fun s key =>
    match alookup s.newByKey key with
    | none => s
    | some newSym =>
      let oldSym := (alookup s.oldByKey key).getD default
      if oldSym.signature = newSym.signature then s
      else
        let kind := if oldSym.kind = SymbolType ∨ oldSym.kind = SymbolInterface
          then ChangeKindTypeChanged else ChangeKindSignatureChanged
        (s.emit { kind := kind, symbol := oldSym.name, package := oldSym.package,
                  oldSignature := oldSym.signature, newSignature := newSym.signature,
                  confidence := ConfidenceHigh }).markMatched key key) s

/-- The `(package, name)` secondary index built in Pass 2 Part B
(`oldByName` / `newByName`). -/
def buildByName (keys : List symbolKey) : List (nameKey × symbolKey) :=
  keys.foldl (fun m key => ainsert m (⟨key.pkg, key.name⟩ : nameKey) key) []

/-- Pass 2, Part B of `changed`: cross-kind changes (same name+pkg,
different kind). -/
def diffState.changedPartB (s : diffState) : diffState :=
  let newByName := buildByName s.unmatchedNew
  (buildByName s.unmatchedOld).foldl (fun s entry =>
    match alookup newByName entry.1 with
    | none => s
    | some newKey =>
      let oldKey := entry.2
      if oldKey.kind = newKey.kind then s
      else
        let oldSym := (alookup s.oldByKey oldKey).getD default
        let newSym := (alookup s.newByKey newKey).getD default
        (s.emit { kind := ChangeKindTypeChanged, symbol := oldSym.name,
                  package := oldSym.package, oldSignature := oldSym.signature,
                  newSignature := newSym.signature,
                  confidence := ConfidenceHigh }).markMatched oldKey newKey) s

/-- Pass 2 (`changed`): Part A then Part B. -/
def diffState.changed (s : diffState) : diffState := s.changedPartA.changedPartB

/-- The signature-group index of Pass 3 (`removedBySig` / `addedBySig`):
group keys by the `(signature, kind, package)` of their symbol. -/
def groupBySig (byKey : List (symbolKey × Symbol)) (keys : List symbolKey) :
    List (sigGroupKey × List symbolKey) :=
  keys.foldl (fun m key =>
    let sym := (alookup byKey key).getD default
    let gk : sigGroupKey := ⟨sym.signature, sym.kind, sym.package⟩
    ainsert m gk ((alookup m gk).getD [] ++ [key])) []

/-- Pass 3 (`renamed`): unique 1:1 exact-signature renames, with the
trivial-signature guard; records type/interface renames for Pass 4. -/
def diffState.renamed (s : diffState) : diffState :=
  let addedBySig := groupBySig s.newByKey s.unmatchedNew
  (groupBySig s.oldByKey s.unmatchedOld).foldl (fun s entry =>
    match alookup addedBySig entry.1 with
    | none => s
    | some newKeys =>
      let oldKeys := entry.2
      if oldKeys.length > 1 ∨ newKeys.length > 1 then s
      else
        let oldKey := oldKeys.headD default
        let newKey := newKeys.headD default
        let oldSym := (alookup s.oldByKey oldKey).getD default
        let newSym := (alookup s.newByKey newKey).getD default
        if oldSym.signature = "" ∨ oldSym.signature = "()" then s
        else
          let c : Change :=
            { kind := ChangeKindRenamed, symbol := oldSym.name,
              package := oldSym.package, newName := newSym.name,
              oldSignature := oldSym.signature, newSignature := newSym.signature,
              confidence := ConfidenceHigh }
          let s := (s.emit c).markMatched oldKey newKey
          if oldSym.kind = SymbolType ∨ oldSym.kind = SymbolInterface then
            { s with typeRenames := ainsert s.typeRenames oldSym.name newSym.name }
          else s) s

/-- `strings.Index(name, ".")` followed by the two slices: split a name at
its first dot into receiver and member. -/
def splitAtDot : List Char → Option (List Char × List Char)
  | [] => none
  | c :: cs =>
    if c = '.' then some ([], cs)
    else (splitAtDot cs).map (fun rm => (c :: rm.1, rm.2))

/-- String wrapper for `splitAtDot`. -/
def splitReceiverMember (name : String) : Option (String × String) :=
  (splitAtDot name.data).map (fun rm => (String.mk rm.1, String.mk rm.2))

/-- Pass 4 (`correlateMethods`): correlate members whose receiver type was
renamed in Pass 3. -/
def diffState.correlateMethods (s : diffState) : diffState :=
  if s.typeRenames.length = 0 then s
  else
    s.unmatchedOld.foldl (fun s oldKey =>
      let oldSym := (alookup s.oldByKey oldKey).getD default
      if oldSym.kind ≠ SymbolMethod ∧ oldSym.kind ≠ SymbolField then s
      else
        match splitReceiverMember oldSym.name with
        | none => s
        | some rm =>
          match alookup s.typeRenames rm.1 with
          | none => s
          | some newReceiver =>
            let expectedNewName := newReceiver ++ "." ++ rm.2
            let expectedNewKey : symbolKey := ⟨oldSym.package, oldSym.kind, expectedNewName⟩
            if expectedNewKey ∈ s.unmatchedNewSet then
              let newSym := (alookup s.newByKey expectedNewKey).getD default
              let c : Change := if oldSym.signature = newSym.signature then
                  { kind := ChangeKindRenamed, symbol := oldSym.name,
                    package := oldSym.package, newName := newSym.name,
                    oldSignature := oldSym.signature, newSignature := newSym.signature,
                    confidence := ConfidenceHigh }
                else
                  { kind := ChangeKindSignatureChanged, symbol := oldSym.name,
                    package := oldSym.package, oldSignature := oldSym.signature,
                    newSignature := newSym.signature, confidence := ConfidenceHigh }
              (s.emit c).markMatched oldKey expectedNewKey
            else s) s

/-- The name threshold of Pass 5 (the short-name guard), extracted from
the loop body of `fuzzyMatch`. -/
def fuzzyThreshold (oldName newName : String) : ℚ :=
  if Nat.max oldName.length newName.length < ShortNameLength
  then ShortNameMinSimilarity else MinNameSimilarity

/-- The `less` function handed to `sort.SliceStable` in Pass 5:
descending score, ties broken by ascending old symbol name. -/
def fuzzyLess (a b : scoredPair) : Bool :=
  if a.score = b.score then decide (a.oldName < b.oldName) else decide (b.score < a.score)

/-- Insert `x` into `l` before the first element strictly greater than it
(equal elements stay in front): the insertion step of a stable sort. -/
def stableInsert {α : Type} (less : α → α → Bool) (x : α) : List α → List α
  | [] => [x]
  | y :: ys => if less x y then x :: y :: ys else y :: stableInsert less x ys

/-- A stable sort with respect to a strict `less` function, modelling
Go's `sort.SliceStable`. -/
def stableSort {α : Type} (less : α → α → Bool) (l : List α) : List α :=
  l.foldl (fun acc x => stableInsert less x acc) []

/-- The candidate-accumulation loops of Pass 5: every pair of filtered
keys passing the short-name guard and both acceptance bounds. -/
def fuzzyCandidates (s : diffState) (oldFuncKeys newFuncKeys : List symbolKey) :
    List scoredPair :=
  oldFuncKeys.foldl (fun cs oldKey =>
    let oldSym := (alookup s.oldByKey oldKey).getD default
    let oldSig := (alookup s.oldSigs oldKey).getD default
    newFuncKeys.foldl (fun cs newKey =>
      let newSym := (alookup s.newByKey newKey).getD default
      let newSig := (alookup s.newSigs newKey).getD default
      let nameSim := nameSimilarity oldSym.name newSym.name
      let overlap := paramOverlap oldSig newSig
      let nameThreshold := fuzzyThreshold oldSym.name newSym.name
      if nameSim ≥ nameThreshold ∧ overlap ≥ MinParamOverlap then
        let pair : scoredPair :=
          { oldKey := oldKey, newKey := newKey,
            score := nameSim * overlap, oldName := oldSym.name }
        cs ++ [pair]
      else cs) cs) ([] : List scoredPair)

/-- Pass 5 (`fuzzyMatch`): candidate scoring, stable sort, greedy match. -/
def diffState.fuzzyMatch (s : diffState) : diffState :=
  let oldFuncKeys := s.unmatchedOld.filter (fun key => (alookup s.oldSigs key).isSome)
  let newFuncKeys := s.unmatchedNew.filter (fun key => (alookup s.newSigs key).isSome)
  if oldFuncKeys.length = 0 ∨ newFuncKeys.length = 0 then s
  else
    (stableSort fuzzyLess (fuzzyCandidates s oldFuncKeys newFuncKeys)).foldl (fun s pair =>
      if pair.oldKey ∈ s.unmatchedOldSet then
        if pair.newKey ∈ s.unmatchedNewSet then
          let oldSym := (alookup s.oldByKey pair.oldKey).getD default
          let newSym := (alookup s.newByKey pair.newKey).getD default
          let c : Change :=
            { kind := ChangeKindRenamed, symbol := oldSym.name,
              package := oldSym.package, newName := newSym.name,
              oldSignature := oldSym.signature, newSignature := newSym.signature,
              confidence := ConfidenceMedium }
          (s.emit c).markMatched pair.oldKey pair.newKey
        else s
      else s) s

/-- Pass 6 (`leftovers`): every remaining unmatched old symbol becomes
`removed` / LOW. -/
def diffState.leftovers (s : diffState) : diffState :=
  s.unmatchedOldSet.foldl (fun s key =>
    let oldSym := (alookup s.oldByKey key).getD default
    s.emit { kind := ChangeKindRemoved, symbol := oldSym.name,
             package := oldSym.package, oldSignature := oldSym.signature,
             confidence := ConfidenceLow }) s

/-- Go `DiffExports`: the six passes in order. -/
def DiffExports (old new : Symbols) (oldSigs newSigs : FuncSigMap) : List Change :=
  ((((((newDiffState old new oldSigs newSigs).exactMatch).changed).renamed).correlateMethods).fuzzyMatch).leftovers.changes

/-! ## The engine with every map-iteration order explicit

Go does not specify (and at runtime randomises) the iteration order of
every `for ... := range m` over a map.  The engine ranges maps in all six
passes: the unmatched-set snapshots (`unmatchedOld` / `unmatchedNew`)
taken by passes 1, 2A, 2B, 3, 4 and 5, the `oldByName` map ranged by
pass 2B, the `removedBySig` map ranged by pass 3, and `unmatchedOldSet`
ranged by pass 6.  The `...Ord` variants below are the passes with each
such order an explicit parameter; an admissible run supplies a
permutation of the corresponding map's key (or entry) list at the state
the pass actually reaches (`OrdersAdmissible`).  Each plain pass above is
definitionally the `...Ord` instance at the model's insertion order. -/

/-- Pass 6 with the hash-map iteration order supplied explicitly. -/
def diffState.leftoversOrd (s : diffState) (order : List symbolKey) : diffState :=
  order.foldl (fun s key =>
    let oldSym := (alookup s.oldByKey key).getD default
    s.emit { kind := ChangeKindRemoved, symbol := oldSym.name,
             package := oldSym.package, oldSignature := oldSym.signature,
             confidence := ConfidenceLow }) s

/-- The engine state after passes 1–4 (the state Pass 5 runs on). -/
def stateAfterPass4 (old new : Symbols) (oldSigs newSigs : FuncSigMap) : diffState :=
  ((((newDiffState old new oldSigs newSigs).exactMatch).changed).renamed).correlateMethods

/-- Pass 1 with its map-iteration order explicit. -/
def diffState.exactMatchOrd (s : diffState) (o1 : List symbolKey) : diffState :=
  o1.foldl (fun s key =>
    match alookup s.newByKey key with
    | none => s
    | some newSym =>
      let oldSym := (alookup s.oldByKey key).getD default
      if oldSym.signature = newSym.signature then s.markMatched key key else s) s

/-- Pass 2 Part A with the order of its `unmatchedOld()` snapshot explicit. -/
def diffState.changedPartAOrd (s : diffState) (o2 : List symbolKey) : diffState :=
  o2.foldl (fun s key =>
    match alookup s.newByKey key with
    | none => s
    | some newSym =>
      let oldSym := (alookup s.oldByKey key).getD default
      if oldSym.signature = newSym.signature then s
      else
        let kind := if oldSym.kind = SymbolType ∨ oldSym.kind = SymbolInterface
          then ChangeKindTypeChanged else ChangeKindSignatureChanged
        (s.emit { kind := kind, symbol := oldSym.name, package := oldSym.package,
                  oldSignature := oldSym.signature, newSignature := newSym.signature,
                  confidence := ConfidenceHigh }).markMatched key key) s

/-- Pass 2 Part B with the snapshot order `bN` feeding `newByName` and the
iteration order `oE` over the entries of `oldByName` explicit (the build
order of `oldByName` enters through which entry lists `oE` may permute). -/
def diffState.changedPartBOrd (s : diffState) (bN : List symbolKey)
    (oE : List (nameKey × symbolKey)) : diffState :=
  let newByName := buildByName bN
  oE.foldl (fun s entry =>
    match alookup newByName entry.1 with
    | none => s
    | some newKey =>
      let oldKey := entry.2
      if oldKey.kind = newKey.kind then s
      else
        let oldSym := (alookup s.oldByKey oldKey).getD default
        let newSym := (alookup s.newByKey newKey).getD default
        (s.emit { kind := ChangeKindTypeChanged, symbol := oldSym.name,
                  package := oldSym.package, oldSignature := oldSym.signature,
                  newSignature := newSym.signature,
                  confidence := ConfidenceHigh }).markMatched oldKey newKey) s

/-- Pass 3 with the snapshot order `gN` feeding `addedBySig` and the
iteration order `gE` over the entries of `removedBySig` explicit. -/
def diffState.renamedOrd (s : diffState) (gN : List symbolKey)
    (gE : List (sigGroupKey × List symbolKey)) : diffState :=
  let addedBySig := groupBySig s.newByKey gN
  gE.foldl (fun s entry =>
    match alookup addedBySig entry.1 with
    | none => s
    | some newKeys =>
      let oldKeys := entry.2
      if oldKeys.length > 1 ∨ newKeys.length > 1 then s
      else
        let oldKey := oldKeys.headD default
        let newKey := newKeys.headD default
        let oldSym := (alookup s.oldByKey oldKey).getD default
        let newSym := (alookup s.newByKey newKey).getD default
        if oldSym.signature = "" ∨ oldSym.signature = "()" then s
        else
          let c : Change :=
            { kind := ChangeKindRenamed, symbol := oldSym.name,
              package := oldSym.package, newName := newSym.name,
              oldSignature := oldSym.signature, newSignature := newSym.signature,
              confidence := ConfidenceHigh }
          let s := (s.emit c).markMatched oldKey newKey
          if oldSym.kind = SymbolType ∨ oldSym.kind = SymbolInterface then
            { s with typeRenames := ainsert s.typeRenames oldSym.name newSym.name }
          else s) s

/-- Pass 4 with the order of its `unmatchedOld()` snapshot explicit. -/
def diffState.correlateMethodsOrd (s : diffState) (o4 : List symbolKey) : diffState :=
  if s.typeRenames.length = 0 then s
  else
    o4.foldl (fun s oldKey =>
      let oldSym := (alookup s.oldByKey oldKey).getD default
      if oldSym.kind ≠ SymbolMethod ∧ oldSym.kind ≠ SymbolField then s
      else
        match splitReceiverMember oldSym.name with
        | none => s
        | some rm =>
          match alookup s.typeRenames rm.1 with
          | none => s
          | some newReceiver =>
            let expectedNewName := newReceiver ++ "." ++ rm.2
            let expectedNewKey : symbolKey := ⟨oldSym.package, oldSym.kind, expectedNewName⟩
            if expectedNewKey ∈ s.unmatchedNewSet then
              let newSym := (alookup s.newByKey expectedNewKey).getD default
              let c : Change := if oldSym.signature = newSym.signature then
                  { kind := ChangeKindRenamed, symbol := oldSym.name,
                    package := oldSym.package, newName := newSym.name,
                    oldSignature := oldSym.signature, newSignature := newSym.signature,
                    confidence := ConfidenceHigh }
                else
                  { kind := ChangeKindSignatureChanged, symbol := oldSym.name,
                    package := oldSym.package, oldSignature := oldSym.signature,
                    newSignature := newSym.signature, confidence := ConfidenceHigh }
              (s.emit c).markMatched oldKey expectedNewKey
            else s) s

/-- Pass 5 with the orders of its `unmatchedOld()` / `unmatchedNew()`
snapshots explicit: they fix the candidate build order and thereby how
the stable sort resolves equal-score, equal-name ties. -/
def diffState.fuzzyMatchOrd (s : diffState) (fO fN : List symbolKey) : diffState :=
  let oldFuncKeys := fO.filter (fun key => (alookup s.oldSigs key).isSome)
  let newFuncKeys := fN.filter (fun key => (alookup s.newSigs key).isSome)
  if oldFuncKeys.length = 0 ∨ newFuncKeys.length = 0 then s
  else
    (stableSort fuzzyLess (fuzzyCandidates s oldFuncKeys newFuncKeys)).foldl (fun s pair =>
      if pair.oldKey ∈ s.unmatchedOldSet then
        if pair.newKey ∈ s.unmatchedNewSet then
          let oldSym := (alookup s.oldByKey pair.oldKey).getD default
          let newSym := (alookup s.newByKey pair.newKey).getD default
          let c : Change :=
            { kind := ChangeKindRenamed, symbol := oldSym.name,
              package := oldSym.package, newName := newSym.name,
              oldSignature := oldSym.signature, newSignature := newSym.signature,
              confidence := ConfidenceMedium }
          (s.emit c).markMatched pair.oldKey pair.newKey
        else s
      else s) s

/-- The engine state a run reaches after passes 1–5 when the map
iterations of those passes follow the given orders. -/
def stateBeforePass6 (old new : Symbols) (oldSigs newSigs : FuncSigMap)
    (o1 o2 : List symbolKey) (bN : List symbolKey) (oE : List (nameKey × symbolKey))
    (gN : List symbolKey) (gE : List (sigGroupKey × List symbolKey))
    (o4 fO fN : List symbolKey) : diffState :=
  ((((((newDiffState old new oldSigs newSigs).exactMatchOrd o1).changedPartAOrd
    o2).changedPartBOrd bN oE).renamedOrd gN gE).correlateMethodsOrd o4).fuzzyMatchOrd fO fN

/-- `DiffExports` as executed by a run whose map iterations follow the
given orders in every pass. -/
def DiffExportsOrd (old new : Symbols) (oldSigs newSigs : FuncSigMap)
    (o1 o2 : List symbolKey) (bN : List symbolKey) (oE : List (nameKey × symbolKey))
    (gN : List symbolKey) (gE : List (sigGroupKey × List symbolKey))
    (o4 fO fN o6 : List symbolKey) : List Change :=
  ((stateBeforePass6 old new oldSigs newSigs o1 o2 bN oE gN gE o4 fO fN).leftoversOrd
    o6).changes

/-- Which order choices are admissible runs: each map iteration is a
permutation of the corresponding map's key (or entry) list at the state
that pass actually reaches.  `bO` and `gO` are the orders of the
`unmatchedOld()` snapshots that feed `oldByName` (pass 2B) and
`removedBySig` (pass 3); they enter the run through the entry lists that
`oE` and `gE` permute. -/
def OrdersAdmissible (old new : Symbols) (oldSigs newSigs : FuncSigMap)
    (o1 o2 bO bN : List symbolKey) (oE : List (nameKey × symbolKey))
    (gO gN : List symbolKey) (gE : List (sigGroupKey × List symbolKey))
    (o4 fO fN o6 : List symbolKey) : Prop :=
  let s0 := newDiffState old new oldSigs newSigs
  let s1 := s0.exactMatchOrd o1
  let s2 := s1.changedPartAOrd o2
  let s3 := s2.changedPartBOrd bN oE
  let s4 := s3.renamedOrd gN gE
  let s5 := s4.correlateMethodsOrd o4
  let s6 := s5.fuzzyMatchOrd fO fN
  o1.Perm s0.unmatchedOldSet ∧ o2.Perm s1.unmatchedOldSet ∧
  bO.Perm s2.unmatchedOldSet ∧ bN.Perm s2.unmatchedNewSet ∧
  oE.Perm (buildByName bO) ∧
  gO.Perm s3.unmatchedOldSet ∧ gN.Perm s3.unmatchedNewSet ∧
  gE.Perm (groupBySig s3.oldByKey gO) ∧
  o4.Perm s4.unmatchedOldSet ∧
  fO.Perm s5.unmatchedOldSet ∧ fN.Perm s5.unmatchedNewSet ∧
  o6.Perm s6.unmatchedOldSet

/-! ## Instrumented (tagged) engine

`diffStateT` is `diffState` with each emitted change additionally tagged
by the old key it consumed and (for passes that match a new symbol) the
new key it consumed.  The code of every pass is identical to the plain
engine except that `emit` records the tags; erasing the tags recovers
`DiffExports` (proved below).  The tags let the at-most-one-match
invariant be stated about the real output. -/

/-- A change together with the old key (and, when present, the new key)
consumed by the emitting pass. -/
abbrev TaggedChange := Change × symbolKey × Option symbolKey

/-- Instrumented engine state: `diffState` with tagged changes. -/
structure diffStateT where
  oldByKey : List (symbolKey × Symbol)
  newByKey : List (symbolKey × Symbol)
  unmatchedOldSet : List symbolKey
  unmatchedNewSet : List symbolKey
  oldSigs : FuncSigMap
  newSigs : FuncSigMap
  typeRenames : List (String × String)
  tchanges : List TaggedChange

/-- Instrumented `newDiffState`. -/
def newDiffStateT (old new : Symbols) (oldSigs newSigs : FuncSigMap) : diffStateT where
  oldByKey := buildByKey old.entries
  newByKey := buildByKey new.entries
  unmatchedOldSet := buildKeySet old.entries
  unmatchedNewSet := buildKeySet new.entries
  oldSigs := oldSigs
  newSigs := newSigs
  typeRenames := []
  tchanges := []

/-- Instrumented `markMatched`. -/
def diffStateT.markMatched (s : diffStateT) (oldKey newKey : symbolKey) : diffStateT :=
  { s with unmatchedOldSet := serase s.unmatchedOldSet oldKey
           unmatchedNewSet := serase s.unmatchedNewSet newKey }

/-- Instrumented `emit`: also records the consumed keys. -/
def diffStateT.emit (s : diffStateT) (c : Change) (oldKey : symbolKey)
    (newKey : Option symbolKey) : diffStateT :=
  { s with tchanges := s.tchanges ++ [(c, oldKey, newKey)] }

/-- Instrumented `unmatchedOld`. -/
def diffStateT.unmatchedOld (s : diffStateT) : List symbolKey := s.unmatchedOldSet

/-- Instrumented `unmatchedNew`. -/
def diffStateT.unmatchedNew (s : diffStateT) : List symbolKey := s.unmatchedNewSet

/-- Instrumented Pass 1. -/
def diffStateT.exactMatch (s : diffStateT) : diffStateT :=
  s.unmatchedOldSet.foldl (fun s key =>
    match alookup s.newByKey key with
    | none => s
    | some newSym =>
      let oldSym := (alookup s.oldByKey key).getD default
      if oldSym.signature = newSym.signature then s.markMatched key key else s) s

/-- Instrumented Pass 2, Part A. -/
def diffStateT.changedPartA (s : diffStateT) : diffStateT :=
  s.unmatchedOld.foldl (fun s key =>
    match alookup s.newByKey key with
    | none => s
    | some newSym =>
      let oldSym := (alookup s.oldByKey key).getD default
      if oldSym.signature = newSym.signature then s
      else
        let kind := if oldSym.kind = SymbolType ∨ oldSym.kind = SymbolInterface
          then ChangeKindTypeChanged else ChangeKindSignatureChanged
        (s.emit { kind := kind, symbol := oldSym.name, package := oldSym.package,
                  oldSignature := oldSym.signature, newSignature := newSym.signature,
                  confidence := ConfidenceHigh } key (some key)).markMatched key key) s

/-- Instrumented Pass 2, Part B. -/
def diffStateT.changedPartB (s : diffStateT) : diffStateT :=
  let newByName := buildByName s.unmatchedNew
  (buildByName s.unmatchedOld).foldl (fun s entry =>
    match alookup newByName entry.1 with
    | none => s
    | some newKey =>
      let oldKey := entry.2
      if oldKey.kind = newKey.kind then s
      else
        let oldSym := (alookup s.oldByKey oldKey).getD default
        let newSym := (alookup s.newByKey newKey).getD default
        (s.emit { kind := ChangeKindTypeChanged, symbol := oldSym.name,
                  package := oldSym.package, oldSignature := oldSym.signature,
                  newSignature := newSym.signature,
                  confidence := ConfidenceHigh } oldKey (some newKey)).markMatched oldKey newKey) s

/-- Instrumented Pass 2. -/
def diffStateT.changed (s : diffStateT) : diffStateT := s.changedPartA.changedPartB

/-- Instrumented Pass 3. -/
def diffStateT.renamed (s : diffStateT) : diffStateT :=
  let addedBySig := groupBySig s.newByKey s.unmatchedNew
  (groupBySig s.oldByKey s.unmatchedOld).foldl (fun s entry =>
    match alookup addedBySig entry.1 with
    | none => s
    | some newKeys =>
      let oldKeys := entry.2
      if oldKeys.length > 1 ∨ newKeys.length > 1 then s
      else
        let oldKey := oldKeys.headD default
        let newKey := newKeys.headD default
        let oldSym := (alookup s.oldByKey oldKey).getD default
        let newSym := (alookup s.newByKey newKey).getD default
        if oldSym.signature = "" ∨ oldSym.signature = "()" then s
        else
          let c : Change :=
            { kind := ChangeKindRenamed, symbol := oldSym.name,
              package := oldSym.package, newName := newSym.name,
              oldSignature := oldSym.signature, newSignature := newSym.signature,
              confidence := ConfidenceHigh }
          let s := (s.emit c oldKey (some newKey)).markMatched oldKey newKey
          if oldSym.kind = SymbolType ∨ oldSym.kind = SymbolInterface then
            { s with typeRenames := ainsert s.typeRenames oldSym.name newSym.name }
          else s) s

/-- Instrumented Pass 4. -/
def diffStateT.correlateMethods (s : diffStateT) : diffStateT :=
  if s.typeRenames.length = 0 then s
  else
    s.unmatchedOld.foldl (fun s oldKey =>
      let oldSym := (alookup s.oldByKey oldKey).getD default
      if oldSym.kind ≠ SymbolMethod ∧ oldSym.kind ≠ SymbolField then s
      else
        match splitReceiverMember oldSym.name with
        | none => s
        | some rm =>
          match alookup s.typeRenames rm.1 with
          | none => s
          | some newReceiver =>
            let expectedNewName := newReceiver ++ "." ++ rm.2
            let expectedNewKey : symbolKey := ⟨oldSym.package, oldSym.kind, expectedNewName⟩
            if expectedNewKey ∈ s.unmatchedNewSet then
              let newSym := (alookup s.newByKey expectedNewKey).getD default
              let c : Change := if oldSym.signature = newSym.signature then
                  { kind := ChangeKindRenamed, symbol := oldSym.name,
                    package := oldSym.package, newName := newSym.name,
                    oldSignature := oldSym.signature, newSignature := newSym.signature,
                    confidence := ConfidenceHigh }
                else
                  { kind := ChangeKindSignatureChanged, symbol := oldSym.name,
                    package := oldSym.package, oldSignature := oldSym.signature,
                    newSignature := newSym.signature, confidence := ConfidenceHigh }
              (s.emit c oldKey (some expectedNewKey)).markMatched oldKey expectedNewKey
            else s) s

/-- The candidate loops of the instrumented Pass 5 (identical to
`fuzzyCandidates` but reading the instrumented state). -/
def fuzzyCandidatesT (s : diffStateT) (oldFuncKeys newFuncKeys : List symbolKey) :
    List scoredPair :=
  oldFuncKeys.foldl (fun cs oldKey =>
    let oldSym := (alookup s.oldByKey oldKey).getD default
    let oldSig := (alookup s.oldSigs oldKey).getD default
    newFuncKeys.foldl (fun cs newKey =>
      let newSym := (alookup s.newByKey newKey).getD default
      let newSig := (alookup s.newSigs newKey).getD default
      let nameSim := nameSimilarity oldSym.name newSym.name
      let overlap := paramOverlap oldSig newSig
      let nameThreshold := fuzzyThreshold oldSym.name newSym.name
      if nameSim ≥ nameThreshold ∧ overlap ≥ MinParamOverlap then
        let pair : scoredPair :=
          { oldKey := oldKey, newKey := newKey,
            score := nameSim * overlap, oldName := oldSym.name }
        cs ++ [pair]
      else cs) cs) ([] : List scoredPair)

/-- Instrumented Pass 5. -/
def diffStateT.fuzzyMatch (s : diffStateT) : diffStateT :=
  let oldFuncKeys := s.unmatchedOld.filter (fun key => (alookup s.oldSigs key).isSome)
  let newFuncKeys := s.unmatchedNew.filter (fun key => (alookup s.newSigs key).isSome)
  if oldFuncKeys.length = 0 ∨ newFuncKeys.length = 0 then s
  else
    (stableSort fuzzyLess (fuzzyCandidatesT s oldFuncKeys newFuncKeys)).foldl (fun s pair =>
      if pair.oldKey ∈ s.unmatchedOldSet then
        if pair.newKey ∈ s.unmatchedNewSet then
          let oldSym := (alookup s.oldByKey pair.oldKey).getD default
          let newSym := (alookup s.newByKey pair.newKey).getD default
          let c : Change :=
            { kind := ChangeKindRenamed, symbol := oldSym.name,
              package := oldSym.package, newName := newSym.name,
              oldSignature := oldSym.signature, newSignature := newSym.signature,
              confidence := ConfidenceMedium }
          (s.emit c pair.oldKey (some pair.newKey)).markMatched pair.oldKey pair.newKey
        else s
      else s) s

/-- Instrumented Pass 6 (no new-side key is consumed). -/
def diffStateT.leftovers (s : diffStateT) : diffStateT :=
  s.unmatchedOldSet.foldl (fun s key =>
    let oldSym := (alookup s.oldByKey key).getD default
    s.emit { kind := ChangeKindRemoved, symbol := oldSym.name,
             package := oldSym.package, oldSignature := oldSym.signature,
             confidence := ConfidenceLow } key none) s

/-- Instrumented `DiffExports`: the same run, with each change tagged by
the keys it consumed. -/
def DiffExportsTagged (old new : Symbols) (oldSigs newSigs : FuncSigMap) : List TaggedChange :=
  ((((((newDiffStateT old new oldSigs newSigs).exactMatch).changed).renamed).correlateMethods).fuzzyMatch).leftovers.tchanges

/-- Tag erasure on states. -/
def eraseT (s : diffStateT) : diffState where
  oldByKey := s.oldByKey
  newByKey := s.newByKey
  unmatchedOldSet := s.unmatchedOldSet
  unmatchedNewSet := s.unmatchedNewSet
  oldSigs := s.oldSigs
  newSigs := s.newSigs
  typeRenames := s.typeRenames
  changes := s.tchanges.map (·.1)

/-! ## Source-root locator (`FindSourceRoot`, astdiff exports file)

The filesystem below the starting directory is modelled as a rose tree of
directories with a `go.mod` presence flag; children are listed in lexical
order of their names, matching the traversal order of `filepath.WalkDir`.
Failure (`no go.mod found`) is modelled as `none`; success returns the
relative path of the found directory as a list of path segments. -/

/-- A directory: name, whether it directly contains a `go.mod` file, and
its subdirectories in lexical order. -/
inductive DirTree where
  | mk (name : String) (gomod : Bool) (children : List DirTree)

/-- Directory name. -/
def DirTree.name : DirTree → String
  | .mk n _ _ => n

/-- Go `hasGoMod`: whether the directory directly contains `go.mod`. -/
def hasGoMod : DirTree → Bool
  | .mk _ g _ => g

mutual

/-- The `filepath.WalkDir` callback of `FindSourceRoot`: `path` is the
relative path of `t` below the start; a directory whose relative path has
more than two separators (`strings.Count(rel, "/") > 2`, i.e. more than
three path segments) is skipped together with its subtree (`fs.SkipDir`);
otherwise the first directory containing `go.mod`, in depth-first lexical
order, is returned (`filepath.SkipAll`). -/
def walkFind : DirTree → List String → Option (List String)
  | .mk _ g cs, path =>
    if path.length > 3 then none
    else if g then some path
    else walkChildren cs path

/-- Walk the children of a directory in order, returning the first hit. -/
def walkChildren : List DirTree → List String → Option (List String)
  | [], _ => none
  | c :: cs, path =>
    match walkFind c (path ++ [c.name]) with
    | some r => some r
    | none => walkChildren cs path

end

/-- Go `FindSourceRoot`: the starting directory itself if it has a
`go.mod`, otherwise the bounded walk; `none` models the
`no go.mod found under …` error. -/
def FindSourceRoot (dir : DirTree) : Option (List String) :=
  if hasGoMod dir then some []
  else walkFind dir []

/-! ## Reference edit distance (for the Levenshtein claim)

`EditRel a b n` holds iff some script of single-character operations
transforms `a` into `b` using exactly `n` paid operations (substitutions,
insertions, deletions; copying a character is free).  The reference
Levenshtein distance of `a` and `b` is the least such `n`. -/

/-- Edit scripts with their cost. -/
inductive EditRel : List Char → List Char → Nat → Prop where
  | nil : EditRel [] [] 0
  | copy {xs ys n} (c : Char) : EditRel xs ys n → EditRel (c :: xs) (c :: ys) n
  | subst {xs ys n} (c d : Char) : EditRel xs ys n → EditRel (c :: xs) (d :: ys) (n + 1)
  | ins {xs ys n} (d : Char) : EditRel xs ys n → EditRel xs (d :: ys) (n + 1)
  | del {xs ys n} (c : Char) : EditRel xs ys n → EditRel (c :: xs) ys (n + 1)

/-- The circumstances under which Pass 5 emits a candidate pair, phrased
against an engine state: the changed fields of the emitted change, the
presence of both keys in the signature maps, and the two acceptance
bounds of the fuzzy filter. -/
def fuzzyEmitted (s : diffState) (c : Change) : Prop :=
  ∃ oldKey newKey oldSig newSig,
    oldKey ∈ s.unmatchedOldSet ∧
    newKey ∈ s.unmatchedNewSet ∧
    alookup s.oldSigs oldKey = some oldSig ∧
    alookup s.newSigs newKey = some newSig ∧
    (let oldSym := (alookup s.oldByKey oldKey).getD default
     let newSym := (alookup s.newByKey newKey).getD default
     c = { kind := ChangeKindRenamed, symbol := oldSym.name,
           package := oldSym.package, newName := newSym.name,
           oldSignature := oldSym.signature, newSignature := newSym.signature,
           confidence := ConfidenceMedium } ∧
     nameSimilarity oldSym.name newSym.name ≥ fuzzyThreshold oldSym.name newSym.name ∧
     paramOverlap oldSig newSig ≥ MinParamOverlap)

/-- The `removed` / LOW change Pass 6 emits for an old symbol. -/
def removedChange (sym : Symbol) : Change :=
  { kind := ChangeKindRemoved, symbol := sym.name, package := sym.package,
    oldSignature := sym.signature, confidence := ConfidenceLow }

/-! ## Concrete inputs used by witnesses and counterexamples -/

/-- Two old symbols with distinct keys (witness input). -/
def exC2Old : Symbols :=
  ⟨"mod", "v1", [⟨"FuncA", SymbolFunc, "mod", "", "(int) error"⟩,
                 ⟨"VarB", SymbolVar, "mod", "", "string"⟩]⟩

/-- An empty symbol list. -/
def exEmpty : Symbols := ⟨"mod", "v2", []⟩

/-- Scenario S8, old side: `ProcessRequest(ctx, string, int) error`. -/
def exS8Old : Symbols :=
  ⟨"mod", "v1", [⟨"ProcessRequest", SymbolFunc, "mod", "", "(ctx, string, int) error"⟩]⟩

/-- Scenario S8, new side: `ProcessReq(ctx, string, int, bool) error`. -/
def exS8New : Symbols :=
  ⟨"mod", "v2", [⟨"ProcessReq", SymbolFunc, "mod", "", "(ctx, string, int, bool) error"⟩]⟩

/-- Key of the S8 old function. -/
def exS8OldKey : symbolKey := ⟨"mod", SymbolFunc, "ProcessRequest"⟩

/-- Key of the S8 new function. -/
def exS8NewKey : symbolKey := ⟨"mod", SymbolFunc, "ProcessReq"⟩

/-- S8 old signature map. -/
def exS8OldSigs : FuncSigMap := [(exS8OldKey, ⟨["ctx", "string", "int"], ["error"]⟩)]

/-- S8 new signature map. -/
def exS8NewSigs : FuncSigMap := [(exS8NewKey, ⟨["ctx", "string", "int", "bool"], ["error"]⟩)]

/-- The MEDIUM rename S8 produces. -/
def exS8Change : Change :=
  { kind := ChangeKindRenamed, symbol := "ProcessRequest", package := "mod",
    oldSignature := "(ctx, string, int) error",
    newSignature := "(ctx, string, int, bool) error",
    newName := "ProcessReq", confidence := ConfidenceMedium }

/-- Scenario S5, old side: `OldInit` with trivial signature `()`. -/
def exS5Old : Symbols := ⟨"mod", "v1", [⟨"OldInit", SymbolFunc, "mod", "", "()"⟩]⟩

/-- Scenario S5, new side: `NewSetup` with trivial signature `()`. -/
def exS5New : Symbols := ⟨"mod", "v2", [⟨"NewSetup", SymbolFunc, "mod", "", "()"⟩]⟩

/-- A fresh engine state on a 1:1 non-trivial rename (Pass 3 fires on it). -/
def exRenState : diffState :=
  newDiffState ⟨"mod", "v1", [⟨"OldName", SymbolFunc, "mod", "", "(int, string) error"⟩]⟩
    ⟨"mod", "v2", [⟨"NewName", SymbolFunc, "mod", "", "(int, string) error"⟩]⟩ [] []

/-- The HIGH rename Pass 3 emits on `exRenState`. -/
def exRenChange : Change :=
  { kind := ChangeKindRenamed, symbol := "OldName", package := "mod",
    oldSignature := "(int, string) error", newSignature := "(int, string) error",
    newName := "NewName", confidence := ConfidenceHigh }

/-- Scenario S7, old side: type `Client` plus its member set. -/
def exS7Old : Symbols :=
  ⟨"mod", "v1", [⟨"Client", SymbolType, "mod", "", "Host string"⟩,
                 ⟨"Client.Do", SymbolMethod, "mod", "Client", "(string) error"⟩,
                 ⟨"Client.Host", SymbolField, "mod", "", "string"⟩]⟩

/-- Scenario S7, new side: type `HTTPClient` with the matching member set. -/
def exS7New : Symbols :=
  ⟨"mod", "v2", [⟨"HTTPClient", SymbolType, "mod", "", "Host string"⟩,
                 ⟨"HTTPClient.Do", SymbolMethod, "mod", "HTTPClient", "(string) error"⟩,
                 ⟨"HTTPClient.Host", SymbolField, "mod", "", "string"⟩]⟩

/-- A state in which Pass 4 correlates one member over a type rename
(with differing signatures, so the `signature_changed` branch fires). -/
def exC5State : diffState :=
  { oldByKey := [(⟨"mod", SymbolMethod, "Client.Do"⟩,
                  ⟨"Client.Do", SymbolMethod, "mod", "Client", "(string) error"⟩)],
    newByKey := [(⟨"mod", SymbolMethod, "HTTPClient.Do"⟩,
                  ⟨"HTTPClient.Do", SymbolMethod, "mod", "HTTPClient", "(string, bool) error"⟩)],
    unmatchedOldSet := [⟨"mod", SymbolMethod, "Client.Do"⟩],
    unmatchedNewSet := [⟨"mod", SymbolMethod, "HTTPClient.Do"⟩],
    oldSigs := [], newSigs := [],
    typeRenames := [("Client", "HTTPClient")], changes := [] }

/-- Two removed old symbols (input of the determinism counterexample). -/
def exC7Old : Symbols :=
  ⟨"mod", "v1", [⟨"FuncA", SymbolFunc, "mod", "", "(int) error"⟩,
                 ⟨"FuncB", SymbolFunc, "mod", "", "(string) error"⟩]⟩

/-- Key of `FuncA`. -/
def exC7KeyA : symbolKey := ⟨"mod", SymbolFunc, "FuncA"⟩

/-- Key of `FuncB`. -/
def exC7KeyB : symbolKey := ⟨"mod", SymbolFunc, "FuncB"⟩

/-- New side for the determinism counterexample: both symbols keep their
keys but change signatures, so Pass 2A emits both changes and the Pass 2A
snapshot order decides the output order. -/
def exC7New : Symbols :=
  ⟨"mod", "v2", [⟨"FuncA", SymbolFunc, "mod", "", "(int) string"⟩,
                 ⟨"FuncB", SymbolFunc, "mod", "", "(string) int"⟩]⟩

/-- A directory tree whose only `go.mod` sits three levels below the
start: `root/a/b/c/go.mod`. -/
def exDeepTree : DirTree :=
  .mk "root" false [.mk "a" false [.mk "b" false [.mk "c" true []]]]

/-- A directory tree with a `go.mod` four levels down: `root/a/b/c/d`. -/
def exDeeperTree : DirTree :=
  .mk "root" false [.mk "a" false [.mk "b" false [.mk "c" false [.mk "d" true []]]]]

/-- Proof-side description of the DP rows: `rowFor R racc rest` lists, for
`j = 0 … rest.length`, the (Mathlib) Levenshtein distance from `R` to the
reversal of the first `j` characters of `rest` prepended to `racc`.  The
row the Go loop carries after processing a prefix `p` of `a` is
`rowFor p.reverse [] b`. -/
def rowFor (R : List Char) : List Char → List Char → List Nat
  | racc, [] => [levenshtein Levenshtein.defaultCost R racc]
  | racc, y :: ys => levenshtein Levenshtein.defaultCost R racc :: rowFor R (y :: racc) ys

/-- The old keys consumed by a tagged change list. -/
def tagsOld (l : List TaggedChange) : List symbolKey := l.map (fun t => t.2.1)

/-- The new keys consumed by a tagged change list. -/
def tagsNew (l : List TaggedChange) : List symbolKey := l.filterMap (fun t => t.2.2)

/-- The sole change the engine emits on scenario S5 (the `removed` / LOW
leftover for `OldInit`). -/
def exS5Change : Change :=
  removedChange ⟨"OldInit", SymbolFunc, "mod", "", "()"⟩

/-- The `(package, name)` secondary key of a symbol key (the key under
which Pass 2 Part B indexes it). -/
def nameKeyOf (k : symbolKey) : nameKey := ⟨k.pkg, k.name⟩

/-- The `(signature, kind, package)` group key Pass 3 computes for a key
through the given index. -/
def sigGroupKeyOf (byKey : List (symbolKey × Symbol)) (k : symbolKey) : sigGroupKey :=
  ⟨((alookup byKey k).getD default).signature,
   ((alookup byKey k).getD default).kind,
   ((alookup byKey k).getD default).package⟩

/-- Core bookkeeping invariant of the instrumented engine: the old keys
consumed so far are pairwise distinct, so are the new keys, consumed keys
are no longer in the unmatched sets, and the unmatched sets are
duplicate-free. -/
def InvCore (s : diffStateT) : Prop :=
  (tagsOld s.tchanges).Nodup ∧
  (tagsNew s.tchanges).Nodup ∧
  (∀ k ∈ tagsOld s.tchanges, k ∉ s.unmatchedOldSet) ∧
  (∀ k ∈ tagsNew s.tchanges, k ∉ s.unmatchedNewSet) ∧
  s.unmatchedOldSet.Nodup ∧
  s.unmatchedNewSet.Nodup

/-- Alignment of the two unmatched sets: an unmatched old key that still
exists on the new side with a different signature is also unmatched on
the new side.  This holds on entry to Pass 2 Part A, whose loop consumes
`key` on both sides without checking the new-side set. -/
def Aligned (s : diffStateT) : Prop :=
  ∀ k ∈ s.unmatchedOldSet,
    (∃ ns, alookup s.newByKey k = some ns ∧
      ((alookup s.oldByKey k).getD default).signature ≠ ns.signature) →
    k ∈ s.unmatchedNewSet

/-- The change Pass 4 emits for a correlated member pair: `renamed` HIGH
when the signatures match exactly, `signature_changed` HIGH otherwise. -/
def correlatedChange (oldSym newSym : Symbol) : Change :=
  if oldSym.signature = newSym.signature then
    { kind := ChangeKindRenamed, symbol := oldSym.name,
      package := oldSym.package, newName := newSym.name,
      oldSignature := oldSym.signature, newSignature := newSym.signature,
      confidence := ConfidenceHigh }
  else
    { kind := ChangeKindSignatureChanged, symbol := oldSym.name,
      package := oldSym.package, oldSignature := oldSym.signature,
      newSignature := newSym.signature, confidence := ConfidenceHigh }

/-- The loop body of Pass 4, named so single iterations can be reasoned
about (`correlateMethods` folds this over the unmatched old keys). -/
def correlateStep (s : diffState) (oldKey : symbolKey) : diffState :=
  let oldSym := (alookup s.oldByKey oldKey).getD default
  if oldSym.kind ≠ SymbolMethod ∧ oldSym.kind ≠ SymbolField then s
  else
    match splitReceiverMember oldSym.name with
    | none => s
    | some rm =>
      match alookup s.typeRenames rm.1 with
      | none => s
      | some newReceiver =>
        let expectedNewName := newReceiver ++ "." ++ rm.2
        let expectedNewKey : symbolKey := ⟨oldSym.package, oldSym.kind, expectedNewName⟩
        if expectedNewKey ∈ s.unmatchedNewSet then
          let newSym := (alookup s.newByKey expectedNewKey).getD default
          (s.emit (correlatedChange oldSym newSym)).markMatched oldKey expectedNewKey
        else s

/-- The new-side key a single Pass 4 iteration would try to consume for an
unmatched old key, with `none` when one of the guards rejects the key. -/
def expectedKeyOf (s : diffState) (k : symbolKey) : Option symbolKey :=
  if ((alookup s.oldByKey k).getD default).kind ≠ SymbolMethod ∧
     ((alookup s.oldByKey k).getD default).kind ≠ SymbolField then none
  else
    match splitReceiverMember ((alookup s.oldByKey k).getD default).name with
    | none => none
    | some rm =>
      match alookup s.typeRenames rm.1 with
      | none => none
      | some newReceiver =>
        some ⟨((alookup s.oldByKey k).getD default).package,
              ((alookup s.oldByKey k).getD default).kind,
              newReceiver ++ "." ++ rm.2⟩

/-- The three HIGH renames of scenario S7 (`Client` → `HTTPClient` with
its member set). -/
def exS7Changes : List Change :=
  [{ kind := ChangeKindRenamed, symbol := "Client", package := "mod",
     oldSignature := "Host string", newSignature := "Host string",
     newName := "HTTPClient", confidence := ConfidenceHigh },
   { kind := ChangeKindRenamed, symbol := "Client.Do", package := "mod",
     oldSignature := "(string) error", newSignature := "(string) error",
     newName := "HTTPClient.Do", confidence := ConfidenceHigh },
   { kind := ChangeKindRenamed, symbol := "Client.Host", package := "mod",
     oldSignature := "string", newSignature := "string",
     newName := "HTTPClient.Host", confidence := ConfidenceHigh }]

/-- The `signature_changed` / HIGH change Pass 4 emits on `exC5State`. -/
def exC5Change : Change :=
  { kind := ChangeKindSignatureChanged, symbol := "Client.Do", package := "mod",
    oldSignature := "(string) error", newSignature := "(string, bool) error",
    confidence := ConfidenceHigh }

end Emenda

/-! # Theorems -/

namespace Emenda

/-! ## Association-list and set lemmas -/

section AssocLemmas

variable {κ : Type} [DecidableEq κ] {ν : Type}

theorem alookup_nil (k : κ) : alookup ([] : List (κ × ν)) k = none := rfl

theorem alookup_ainsert (m : List (κ × ν)) (k k' : κ) (v : ν) :
    alookup (ainsert m k v) k' = if k' = k then some v else alookup m k' := by
  induction m with
  | nil => simp [ainsert, alookup]
  | cons e m ih =>
    obtain ⟨k₀, v₀⟩ := e
    by_cases hk : k = k₀
    · subst hk
      simp only [ainsert, if_pos rfl, alookup]
      by_cases h' : k' = k <;> simp [h']
    · simp only [ainsert, if_neg hk, alookup, ih]
      by_cases h' : k' = k₀
      · subst h'
        simp [Ne.symm hk]
      · simp [h']

theorem mem_sinsert (l : List κ) (k x : κ) :
    x ∈ sinsert l k ↔ x ∈ l ∨ x = k := by
  by_cases h : k ∈ l
  · simp only [sinsert, if_pos h]
    constructor
    · exact Or.inl
    · rintro (hx | rfl) <;> [exact hx; exact h]
  · simp [sinsert, if_neg h]

theorem sinsert_nodup (l : List κ) (k : κ) (h : l.Nodup) : (sinsert l k).Nodup := by
  by_cases hk : k ∈ l
  · simpa [sinsert, if_pos hk]
  · simp only [sinsert, if_neg hk]
    rw [List.nodup_append]
    refine ⟨h, List.nodup_singleton k, ?_⟩
    intro a ha hb
    simp only [List.mem_singleton] at hb
    exact hk (hb ▸ ha)

theorem mem_serase (l : List κ) (k x : κ) :
    x ∈ serase l k ↔ x ∈ l ∧ x ≠ k := by
  simp [serase]

theorem serase_subset (l : List κ) (k : κ) : serase l k ⊆ l :=
  fun x hx => (List.mem_filter.mp hx).1

theorem serase_nodup (l : List κ) (k : κ) (h : l.Nodup) : (serase l k).Nodup :=
  h.filter _

theorem foldl_serase (K S : List κ) :
    K.foldl serase S = S.filter (fun x => decide (x ∉ K)) := by
  induction K generalizing S with
  | nil =>
    simp only [List.foldl_nil]
    exact (List.filter_eq_self.mpr (fun a _ => by simp)).symm
  | cons k K ih =>
    simp only [List.foldl_cons, ih, serase, List.filter_filter]
    refine List.filter_congr (fun a _ => ?_)
    by_cases h1 : a = k <;> by_cases h2 : a ∈ K <;> simp [h1, h2]

theorem foldl_serase_self (S : List κ) : S.foldl serase S = [] := by
  rw [foldl_serase]
  exact List.filter_eq_nil_iff.mpr (fun a ha => by simp [ha])

/-- Generic invariant preservation along a left fold. -/
theorem foldl_inv {σ γ : Type} {P : σ → Prop} (step : σ → γ → σ) (l : List γ) (s : σ)
    (h0 : P s) (hstep : ∀ s x, x ∈ l → P s → P (step s x)) : P (l.foldl step s) := by
  induction l generalizing s with
  | nil => exact h0
  | cons x l ih =>
    exact ih _ (hstep s x (by simp) h0) (fun s y hy => hstep s y (by simp [hy]))

/-- A fold whose steps all fix the state is the identity. -/
theorem foldl_fix {σ γ : Type} (step : σ → γ → σ) (l : List γ) (s : σ)
    (h : ∀ x ∈ l, step s x = s) : l.foldl step s = s := by
  induction l with
  | nil => rfl
  | cons x l ih =>
    rw [List.foldl_cons, h x (by simp)]
    exact ih (fun y hy => h y (by simp [hy]))

end AssocLemmas

/-! ## Index-building lemmas -/

theorem mem_buildKeySet_aux (es : List Symbol) (S : List symbolKey) (x : symbolKey) :
    x ∈ es.foldl (fun s sym => sinsert s (symKeyOf sym)) S ↔
      x ∈ S ∨ x ∈ es.map symKeyOf := by
  induction es generalizing S with
  | nil => simp
  | cons e es ih =>
    simp only [List.foldl_cons, ih, mem_sinsert, List.map_cons, List.mem_cons]
    tauto

theorem mem_buildKeySet (es : List Symbol) (x : symbolKey) :
    x ∈ buildKeySet es ↔ x ∈ es.map symKeyOf := by
  simpa using mem_buildKeySet_aux es [] x

theorem buildKeySet_nodup_aux (es : List Symbol) (S : List symbolKey) (h : S.Nodup) :
    (es.foldl (fun s sym => sinsert s (symKeyOf sym)) S).Nodup := by
  induction es generalizing S with
  | nil => exact h
  | cons e es ih => exact ih _ (sinsert_nodup _ _ h)

theorem buildKeySet_nodup (es : List Symbol) : (buildKeySet es).Nodup :=
  buildKeySet_nodup_aux es [] List.nodup_nil

theorem alookup_buildByKey_isSome_aux (es : List Symbol)
    (M : List (symbolKey × Symbol)) (k : symbolKey) :
    (alookup (es.foldl (fun m sym => ainsert m (symKeyOf sym) sym) M) k).isSome ↔
      (alookup M k).isSome ∨ k ∈ es.map symKeyOf := by
  induction es generalizing M with
  | nil => simp
  | cons e es ih =>
    simp only [List.foldl_cons, ih, alookup_ainsert, List.map_cons, List.mem_cons]
    by_cases h : k = symKeyOf e <;> simp [h]

theorem alookup_buildByKey_isSome (es : List Symbol) (k : symbolKey) :
    (alookup (buildByKey es) k).isSome ↔ k ∈ es.map symKeyOf := by
  unfold buildByKey
  rw [alookup_buildByKey_isSome_aux es [] k]
  simp [alookup]

end Emenda

namespace Emenda

/-! ## C9: SymbolKind tokens -/

/-- C9 counterexample: the `SymbolKind` constant block does not consist of
the tokens `function`, `constant`, `variable` (among the claimed seven);
the source declares `func`, `const`, `var`. -/
theorem C9_symbolKind_tokens_counterexample :
    symbolKindValues ≠
      ["function", "type", "method", "field", "constant", "variable", "interface"] ∧
    SymbolFunc = "func" ∧ SymbolConst = "const" ∧ SymbolVar = "var" := by
  refine ⟨?_, rfl, rfl, rfl⟩
  decide

/-- C9 (amended): the `SymbolKind` enumeration's values, as stored in
Symbol records and serialised to JSON, are exactly the lower-case tokens
`func`, `type`, `method`, `field`, `const`, `var`, `interface`. -/
theorem C9_symbolKind_tokens :
    symbolKindValues = ["func", "type", "method", "field", "const", "var", "interface"] := rfl

/-! ## C8: FindSourceRoot bounded depth -/

/-- C8: `FindSourceRoot` on a tree whose only `go.mod` is three directory
levels below the start returns that directory instead of failing: the
depth guard `strings.Count(rel, "/") > 2` counts separators, not levels,
so directories up to three levels deep are examined.  The claim (and the
function's own comment) bound the search at two levels.  A manifest four
levels down is out of reach, as the second conjunct shows. -/
theorem C8_findSourceRoot_depth_three :
    FindSourceRoot exDeepTree = some ["a", "b", "c"] ∧
    FindSourceRoot exDeeperTree = none := ⟨rfl, rfl⟩

end Emenda

namespace Emenda

/-! ## State-operation lemmas -/

@[simp] theorem markMatched_oldByKey (s : diffState) (a b : symbolKey) :
    (s.markMatched a b).oldByKey = s.oldByKey := rfl

@[simp] theorem markMatched_newByKey (s : diffState) (a b : symbolKey) :
    (s.markMatched a b).newByKey = s.newByKey := rfl

@[simp] theorem markMatched_oldSigs (s : diffState) (a b : symbolKey) :
    (s.markMatched a b).oldSigs = s.oldSigs := rfl

@[simp] theorem markMatched_newSigs (s : diffState) (a b : symbolKey) :
    (s.markMatched a b).newSigs = s.newSigs := rfl

@[simp] theorem markMatched_typeRenames (s : diffState) (a b : symbolKey) :
    (s.markMatched a b).typeRenames = s.typeRenames := rfl

@[simp] theorem markMatched_changes (s : diffState) (a b : symbolKey) :
    (s.markMatched a b).changes = s.changes := rfl

@[simp] theorem markMatched_unmatchedOldSet (s : diffState) (a b : symbolKey) :
    (s.markMatched a b).unmatchedOldSet = serase s.unmatchedOldSet a := rfl

@[simp] theorem markMatched_unmatchedNewSet (s : diffState) (a b : symbolKey) :
    (s.markMatched a b).unmatchedNewSet = serase s.unmatchedNewSet b := rfl

@[simp] theorem emit_oldByKey (s : diffState) (c : Change) :
    (s.emit c).oldByKey = s.oldByKey := rfl

@[simp] theorem emit_newByKey (s : diffState) (c : Change) :
    (s.emit c).newByKey = s.newByKey := rfl

@[simp] theorem emit_oldSigs (s : diffState) (c : Change) :
    (s.emit c).oldSigs = s.oldSigs := rfl

@[simp] theorem emit_newSigs (s : diffState) (c : Change) :
    (s.emit c).newSigs = s.newSigs := rfl

@[simp] theorem emit_typeRenames (s : diffState) (c : Change) :
    (s.emit c).typeRenames = s.typeRenames := rfl

@[simp] theorem emit_unmatchedOldSet (s : diffState) (c : Change) :
    (s.emit c).unmatchedOldSet = s.unmatchedOldSet := rfl

@[simp] theorem emit_unmatchedNewSet (s : diffState) (c : Change) :
    (s.emit c).unmatchedNewSet = s.unmatchedNewSet := rfl

@[simp] theorem emit_changes (s : diffState) (c : Change) :
    (s.emit c).changes = s.changes ++ [c] := rfl

/-! ## Pass no-op lemmas (empty unmatched sets / empty maps) -/

theorem exactMatch_of_unmatchedOld_nil (s : diffState) (h : s.unmatchedOldSet = []) :
    s.exactMatch = s := by
  unfold diffState.exactMatch
  rw [h]
  rfl

theorem exactMatch_of_newByKey_nil (s : diffState) (h : s.newByKey = []) :
    s.exactMatch = s := by
  unfold diffState.exactMatch
  exact foldl_fix _ _ _ (fun k _ => by rw [h]; rfl)

theorem changedPartA_of_unmatchedOld_nil (s : diffState) (h : s.unmatchedOldSet = []) :
    s.changedPartA = s := by
  unfold diffState.changedPartA diffState.unmatchedOld
  rw [h]
  rfl

theorem changedPartA_of_newByKey_nil (s : diffState) (h : s.newByKey = []) :
    s.changedPartA = s := by
  unfold diffState.changedPartA diffState.unmatchedOld
  exact foldl_fix _ _ _ (fun k _ => by rw [h]; rfl)

theorem buildByName_nil : buildByName [] = [] := rfl

theorem changedPartB_of_unmatchedOld_nil (s : diffState) (h : s.unmatchedOldSet = []) :
    s.changedPartB = s := by
  unfold diffState.changedPartB diffState.unmatchedOld diffState.unmatchedNew
  rw [h]
  rfl

theorem changedPartB_of_unmatchedNew_nil (s : diffState) (h : s.unmatchedNewSet = []) :
    s.changedPartB = s := by
  unfold diffState.changedPartB diffState.unmatchedOld diffState.unmatchedNew
  rw [h]
  exact foldl_fix _ _ _ (fun e _ => rfl)

theorem changed_of_unmatchedOld_nil (s : diffState) (h : s.unmatchedOldSet = []) :
    s.changed = s := by
  unfold diffState.changed
  rw [changedPartA_of_unmatchedOld_nil s h, changedPartB_of_unmatchedOld_nil s h]

theorem changed_of_empty_new (s : diffState) (h : s.newByKey = [])
    (h2 : s.unmatchedNewSet = []) : s.changed = s := by
  unfold diffState.changed
  rw [changedPartA_of_newByKey_nil s h, changedPartB_of_unmatchedNew_nil s h2]

theorem groupBySig_nil (m : List (symbolKey × Symbol)) : groupBySig m [] = [] := rfl

theorem renamed_of_unmatchedOld_nil (s : diffState) (h : s.unmatchedOldSet = []) :
    s.renamed = s := by
  unfold diffState.renamed diffState.unmatchedOld diffState.unmatchedNew
  rw [h]
  rfl

theorem renamed_of_unmatchedNew_nil (s : diffState) (h : s.unmatchedNewSet = []) :
    s.renamed = s := by
  unfold diffState.renamed diffState.unmatchedOld diffState.unmatchedNew
  rw [h]
  exact foldl_fix _ _ _ (fun e _ => rfl)

theorem correlateMethods_of_typeRenames_nil (s : diffState) (h : s.typeRenames = []) :
    s.correlateMethods = s := by
  unfold diffState.correlateMethods
  rw [h]
  rfl

theorem fuzzyMatch_of_unmatchedOld_nil (s : diffState) (h : s.unmatchedOldSet = []) :
    s.fuzzyMatch = s := by
  unfold diffState.fuzzyMatch diffState.unmatchedOld
  rw [h]
  rfl

theorem fuzzyMatch_of_unmatchedNew_nil (s : diffState) (h : s.unmatchedNewSet = []) :
    s.fuzzyMatch = s := by
  unfold diffState.fuzzyMatch diffState.unmatchedOld diffState.unmatchedNew
  rw [h]
  simp only [List.filter_nil, List.length_nil]
  split
  · rfl
  · next hcond => exact absurd (Or.inr trivial) hcond

theorem leftovers_of_unmatchedOld_nil (s : diffState) (h : s.unmatchedOldSet = []) :
    s.leftovers = s := by
  unfold diffState.leftovers
  rw [h]
  rfl

end Emenda

namespace Emenda

/-! ## Pass 1 on identical sides -/

theorem exactMatch_fold_identity (K : List symbolKey) :
    ∀ (s : diffState), s.newByKey = s.oldByKey →
      (∀ k ∈ K, (alookup s.oldByKey k).isSome) →
      K.foldl (fun s key =>
        match alookup s.newByKey key with
        | none => s
        | some newSym =>
          let oldSym := (alookup s.oldByKey key).getD default
          if oldSym.signature = newSym.signature then s.markMatched key key else s) s =
      { s with unmatchedOldSet := K.foldl serase s.unmatchedOldSet
               unmatchedNewSet := K.foldl serase s.unmatchedNewSet } := by
  induction K with
  | nil => intro s _ _; rfl
  | cons k K ih =>
    intro s hnk hk
    obtain ⟨sym, hsym⟩ := Option.isSome_iff_exists.mp (hk k (by simp))
    have hstep : (match alookup s.newByKey k with
        | none => s
        | some newSym =>
          let oldSym := (alookup s.oldByKey k).getD default
          if oldSym.signature = newSym.signature then s.markMatched k k else s) =
        s.markMatched k k := by
      rw [hnk, hsym]
      simp [hsym]
    rw [List.foldl_cons, hstep, ih (s.markMatched k k) hnk (fun k' hk' => hk k' (by simp [hk']))]
    rfl

/-- C1: diffing a symbol list against itself (with any signature map)
produces the empty change list: Pass 1 consumes every key and the later
passes see empty unmatched sets. -/
theorem C1_identity_idempotence (S : Symbols) (sigs : FuncSigMap) :
    DiffExports S S sigs sigs = [] := by
  set s0 := newDiffState S S sigs sigs with hs0
  have hk : ∀ k ∈ s0.unmatchedOldSet, (alookup s0.oldByKey k).isSome := by
    intro k hkmem
    have : k ∈ S.entries.map symKeyOf := (mem_buildKeySet S.entries k).mp hkmem
    exact (alookup_buildByKey_isSome S.entries k).mpr this
  have h1 : s0.exactMatch = { s0 with unmatchedOldSet := [], unmatchedNewSet := [] } := by
    unfold diffState.exactMatch
    rw [exactMatch_fold_identity s0.unmatchedOldSet s0 rfl hk]
    have hold : s0.unmatchedOldSet.foldl serase s0.unmatchedOldSet = [] :=
      foldl_serase_self _
    have hnew : s0.unmatchedOldSet.foldl serase s0.unmatchedNewSet = [] := by
      have : s0.unmatchedNewSet = s0.unmatchedOldSet := rfl
      rw [this]
      exact foldl_serase_self _
    rw [hold, hnew]
  set s1 : diffState := { s0 with unmatchedOldSet := [], unmatchedNewSet := [] } with hs1
  have h2 : s1.changed = s1 := changed_of_unmatchedOld_nil s1 rfl
  have h3 : s1.renamed = s1 := renamed_of_unmatchedOld_nil s1 rfl
  have h4 : s1.correlateMethods = s1 := correlateMethods_of_typeRenames_nil s1 rfl
  have h5 : s1.fuzzyMatch = s1 := fuzzyMatch_of_unmatchedOld_nil s1 rfl
  have h6 : s1.leftovers = s1 := leftovers_of_unmatchedOld_nil s1 rfl
  show ((((((s0.exactMatch).changed).renamed).correlateMethods).fuzzyMatch).leftovers).changes = []
  rw [h1, h2, h3, h4, h5, h6]
  rfl

end Emenda

namespace Emenda

/-! ## Index construction with duplicate-free keys -/

theorem ainsert_of_not_mem {κ : Type} [DecidableEq κ] {ν : Type}
    (m : List (κ × ν)) (k : κ) (v : ν) (h : k ∉ m.map Prod.fst) :
    ainsert m k v = m ++ [(k, v)] := by
  induction m with
  | nil => rfl
  | cons e m ih =>
    obtain ⟨k₀, v₀⟩ := e
    simp only [List.map_cons, List.mem_cons] at h
    push_neg at h
    simp only [ainsert, if_neg h.1]
    rw [ih h.2]
    rfl

theorem buildKeySet_eq_map_aux (es : List Symbol) :
    ∀ (S : List symbolKey), (S ++ es.map symKeyOf).Nodup →
      es.foldl (fun s sym => sinsert s (symKeyOf sym)) S = S ++ es.map symKeyOf := by
  induction es with
  | nil => intro S _; simp
  | cons e es ih =>
    intro S h
    have hnot : symKeyOf e ∉ S := by
      intro hmem
      have := List.disjoint_of_nodup_append h
      exact this hmem (by simp)
    have hstep : sinsert S (symKeyOf e) = S ++ [symKeyOf e] := by
      simp [sinsert, hnot]
    rw [List.foldl_cons, hstep, ih (S ++ [symKeyOf e]) (by simpa using h)]
    simp

theorem buildKeySet_eq_map (es : List Symbol) (h : (es.map symKeyOf).Nodup) :
    buildKeySet es = es.map symKeyOf := by
  simpa using buildKeySet_eq_map_aux es [] (by simpa using h)

theorem buildByKey_eq_map_aux (es : List Symbol) :
    ∀ (M : List (symbolKey × Symbol)), (M.map Prod.fst ++ es.map symKeyOf).Nodup →
      es.foldl (fun m sym => ainsert m (symKeyOf sym) sym) M =
        M ++ es.map (fun e => (symKeyOf e, e)) := by
  induction es with
  | nil => intro M _; simp
  | cons e es ih =>
    intro M h
    have hnot : symKeyOf e ∉ M.map Prod.fst := by
      intro hmem
      exact List.disjoint_of_nodup_append h hmem (by simp)
    rw [List.foldl_cons, ainsert_of_not_mem M (symKeyOf e) e hnot,
      ih (M ++ [(symKeyOf e, e)]) (by simpa using h)]
    simp

theorem buildByKey_eq_map (es : List Symbol) (h : (es.map symKeyOf).Nodup) :
    buildByKey es = es.map (fun e => (symKeyOf e, e)) := by
  unfold buildByKey
  simpa using buildByKey_eq_map_aux es [] (by simpa using h)

theorem alookup_map_pair (es : List Symbol) (h : (es.map symKeyOf).Nodup) :
    ∀ e ∈ es, alookup (es.map (fun e => (symKeyOf e, e))) (symKeyOf e) = some e := by
  induction es with
  | nil => intro e he; cases he
  | cons a es ih =>
    intro e he
    simp only [List.map_cons, List.nodup_cons] at h
    rcases List.mem_cons.mp he with rfl | hmem
    · simp [alookup]
    · have hne : symKeyOf e ≠ symKeyOf a := by
        intro heq
        exact h.1 (heq ▸ List.mem_map_of_mem symKeyOf hmem)
      simp only [List.map_cons, alookup, if_neg hne]
      exact ih h.2 e hmem

/-! ## Pass 6 output characterisation -/

theorem leftoversOrd_changes (order : List symbolKey) :
    ∀ (s : diffState),
      (s.leftoversOrd order).changes =
        s.changes ++ order.map (fun k => removedChange ((alookup s.oldByKey k).getD default)) := by
  induction order with
  | nil => intro s; simp [diffState.leftoversOrd, removedChange]
  | cons k order ih =>
    intro s
    unfold diffState.leftoversOrd at ih ⊢
    rw [List.foldl_cons]
    rw [ih]
    simp [diffState.emit, removedChange]

theorem leftovers_changes (s : diffState) :
    s.leftovers.changes =
      s.changes ++ s.unmatchedOldSet.map
        (fun k => removedChange ((alookup s.oldByKey k).getD default)) := by
  have h : s.leftovers = s.leftoversOrd s.unmatchedOldSet := rfl
  rw [h, leftoversOrd_changes]

end Emenda

namespace Emenda

/-- C2: diffing against an empty new side yields exactly one `removed` /
LOW change per entry of the old list (in order), and nothing else; the
symmetric diff with an empty old side yields no changes.  The
duplicate-free-keys hypothesis is the data-model invariant that
`(package, kind, name)` identifies a symbol within one version. -/
theorem C2_empty_new_empty_old (S E : Symbols) (oldSigs newSigs : FuncSigMap)
    (hE : E.entries = []) (hnd : (S.entries.map symKeyOf).Nodup) :
    DiffExports S E oldSigs [] = S.entries.map removedChange ∧
    DiffExports E S [] newSigs = [] := by
  constructor
  · unfold DiffExports
    set s0 := newDiffState S E oldSigs [] with hs0
    have hnb : s0.newByKey = [] := by rw [hs0]; show buildByKey E.entries = []; rw [hE]; rfl
    have hns : s0.unmatchedNewSet = [] := by
      rw [hs0]; show buildKeySet E.entries = []; rw [hE]; rfl
    have h1 : s0.exactMatch = s0 := exactMatch_of_newByKey_nil s0 hnb
    have h2 : s0.changed = s0 := changed_of_empty_new s0 hnb hns
    have h3 : s0.renamed = s0 := renamed_of_unmatchedNew_nil s0 hns
    have h4 : s0.correlateMethods = s0 := correlateMethods_of_typeRenames_nil s0 rfl
    have h5 : s0.fuzzyMatch = s0 := fuzzyMatch_of_unmatchedNew_nil s0 hns
    rw [h1, h2, h3, h4, h5, leftovers_changes]
    have hchanges : s0.changes = [] := rfl
    have hset : s0.unmatchedOldSet = S.entries.map symKeyOf := buildKeySet_eq_map _ hnd
    have hmap : s0.oldByKey = S.entries.map (fun e => (symKeyOf e, e)) := buildByKey_eq_map _ hnd
    rw [hchanges, hset, hmap, List.nil_append, List.map_map]
    refine List.map_congr_left ?_
    intro e he
    simp only [Function.comp_apply]
    rw [alookup_map_pair S.entries hnd e he]
    rfl
  · unfold DiffExports
    set s0 := newDiffState E S [] newSigs with hs0
    have hos : s0.unmatchedOldSet = [] := by
      rw [hs0]; show buildKeySet E.entries = []; rw [hE]; rfl
    have h1 : s0.exactMatch = s0 := exactMatch_of_unmatchedOld_nil s0 hos
    have h2 : s0.changed = s0 := changed_of_unmatchedOld_nil s0 hos
    have h3 : s0.renamed = s0 := renamed_of_unmatchedOld_nil s0 hos
    have h4 : s0.correlateMethods = s0 := correlateMethods_of_typeRenames_nil s0 rfl
    have h5 : s0.fuzzyMatch = s0 := fuzzyMatch_of_unmatchedOld_nil s0 hos
    have h6 : s0.leftovers = s0 := leftovers_of_unmatchedOld_nil s0 hos
    rw [h1, h2, h3, h4, h5, h6]
    rfl

/-- C2 witness: a concrete two-symbol old side against the empty new side
produces exactly its two `removed` / LOW changes; the reverse diff is
empty. -/
theorem C2_empty_new_empty_old_witness :
    exEmpty.entries = [] ∧ (exC2Old.entries.map symKeyOf).Nodup ∧
    (DiffExports exC2Old exEmpty [] [] = exC2Old.entries.map removedChange ∧
     DiffExports exEmpty exC2Old [] [] = []) :=
  ⟨rfl, by decide,
    C2_empty_new_empty_old exC2Old exEmpty [] [] rfl (by decide)⟩

end Emenda

namespace Emenda

/-! ## Levenshtein DP correctness -/

theorem lev_nil_right (R : List Char) :
    levenshtein Levenshtein.defaultCost R [] = R.length := by
  induction R with
  | nil => simp
  | cons x xs ih => simp [ih]; omega

theorem lev_nil_left (ys : List Char) :
    levenshtein Levenshtein.defaultCost [] ys = ys.length := by
  induction ys with
  | nil => simp
  | cons y ys ih => simp [ih]; omega

theorem rowFor_head_tail (R : List Char) (racc rest : List Char) :
    rowFor R racc rest =
      levenshtein Levenshtein.defaultCost R racc :: (rowFor R racc rest).tail := by
  cases rest <;> rfl

theorem levStep_cons (x y : Char) (p0 p1 : Nat) (ps : List Nat) (c : Nat) (ys : List Char) :
    levStep x (y :: ys) (p0 :: p1 :: ps) c =
      Nat.min (p1 + 1) (Nat.min (c + 1) (p0 + if x = y then 0 else 1)) ::
        levStep x ys (p1 :: ps)
          (Nat.min (p1 + 1) (Nat.min (c + 1) (p0 + if x = y then 0 else 1))) := rfl

theorem levStep_spec (x : Char) (R : List Char) :
    ∀ (rest racc : List Char),
      levStep x rest (rowFor R racc rest)
          (levenshtein Levenshtein.defaultCost (x :: R) racc) =
        (rowFor (x :: R) racc rest).tail := by
  intro rest
  induction rest with
  | nil => intro racc; rfl
  | cons y ys ih =>
    intro racc
    have hvmin :
        Nat.min (levenshtein Levenshtein.defaultCost R (y :: racc) + 1)
          (Nat.min (levenshtein Levenshtein.defaultCost (x :: R) racc + 1)
            (levenshtein Levenshtein.defaultCost R racc +
              if x = y then 0 else 1)) =
        levenshtein Levenshtein.defaultCost (x :: R) (y :: racc) := by
      rw [levenshtein_cons_cons]
      simp only [Levenshtein.defaultCost_delete, Levenshtein.defaultCost_insert,
        Levenshtein.defaultCost_substitute]
      rw [Nat.add_comm 1 (levenshtein Levenshtein.defaultCost R (y :: racc)),
        Nat.add_comm 1 (levenshtein Levenshtein.defaultCost (x :: R) racc),
        Nat.add_comm (if x = y then 0 else 1) (levenshtein Levenshtein.defaultCost R racc)]
    have hexp : rowFor R racc (y :: ys) =
        levenshtein Levenshtein.defaultCost R racc ::
          levenshtein Levenshtein.defaultCost R (y :: racc) ::
            (rowFor R (y :: racc) ys).tail := by
      rw [show rowFor R racc (y :: ys) =
          levenshtein Levenshtein.defaultCost R racc :: rowFor R (y :: racc) ys from rfl,
        rowFor_head_tail R (y :: racc) ys]
      rfl
    rw [hexp, levStep_cons, hvmin, ← rowFor_head_tail R (y :: racc) ys, ih (y :: racc)]
    rw [show (rowFor (x :: R) racc (y :: ys)).tail = rowFor (x :: R) (y :: racc) ys from rfl]
    exact (rowFor_head_tail _ _ _).symm

theorem levLoop_spec (b : List Char) :
    ∀ (xs R : List Char),
      levLoop b xs (rowFor R [] b) (R.length + 1) = rowFor (xs.reverse ++ R) [] b := by
  intro xs
  induction xs with
  | nil => intro R; rfl
  | cons x xs ih =>
    intro R
    have hhead : (R.length + 1) :: levStep x b (rowFor R [] b) (R.length + 1) =
        rowFor (x :: R) [] b := by
      have hlen : levenshtein Levenshtein.defaultCost (x :: R) [] = R.length + 1 := by
        rw [lev_nil_right]; rfl
      rw [← hlen, levStep_spec x R b []]
      exact (rowFor_head_tail _ _ _).symm
    show levLoop b xs ((R.length + 1) :: levStep x b (rowFor R [] b) (R.length + 1))
        (R.length + 1 + 1) = _
    rw [hhead]
    have := ih (x :: R)
    rw [show (x :: R).length + 1 = R.length + 1 + 1 from rfl] at this
    rw [this]
    congr 1
    simp

theorem rowFor_nil_left : ∀ (rest racc : List Char),
    rowFor [] racc rest = List.range' racc.length (rest.length + 1) := by
  intro rest
  induction rest with
  | nil =>
    intro racc
    show [levenshtein Levenshtein.defaultCost [] racc] = _
    rw [lev_nil_left]
    rfl
  | cons y ys ih =>
    intro racc
    show levenshtein Levenshtein.defaultCost [] racc :: rowFor [] (y :: racc) ys = _
    rw [lev_nil_left, ih (y :: racc)]
    rw [List.range'_succ]
    rfl

theorem rowFor_getD_last (R : List Char) :
    ∀ (rest racc : List Char),
      (rowFor R racc rest).getD rest.length 0 =
        levenshtein Levenshtein.defaultCost R (rest.reverse ++ racc) := by
  intro rest
  induction rest with
  | nil => intro racc; rfl
  | cons y ys ih =>
    intro racc
    show (rowFor R (y :: racc) ys).getD ys.length 0 = _
    rw [ih (y :: racc)]
    simp

theorem levenshteinChars_eq_reverse (a b : List Char) :
    levenshteinChars a b =
      levenshtein Levenshtein.defaultCost a.reverse b.reverse := by
  unfold levenshteinChars
  by_cases ha : a.isEmpty
  · rw [if_pos ha]
    rw [List.isEmpty_iff.mp ha]
    simp [lev_nil_left]
  · rw [if_neg ha]
    by_cases hb : b.isEmpty
    · rw [if_pos hb]
      rw [List.isEmpty_iff.mp hb]
      simp [lev_nil_right]
    · rw [if_neg hb]
      have hinit : List.range (b.length + 1) = rowFor [] [] b := by
        rw [rowFor_nil_left b []]
        rw [List.range_eq_range']
        rfl
      rw [hinit]
      have := levLoop_spec b a []
      rw [show ([] : List Char).length + 1 = 1 from rfl] at this
      rw [this]
      rw [rowFor_getD_last]
      simp

/-! ## The reference distance: minimality of the DP result -/

theorem lev_le_of_editRel {xs ys : List Char} {n : Nat} (h : EditRel xs ys n) :
    levenshtein Levenshtein.defaultCost xs ys ≤ n := by
  induction h with
  | nil => simp
  | copy c _ ih =>
    refine le_trans ?_ ih
    rw [levenshtein_cons_cons]
    refine le_trans (Nat.min_le_right _ _) ?_
    refine le_trans (Nat.min_le_right _ _) ?_
    simp
  | subst c d _ ih =>
    rename_i xs' ys' n' _
    have : levenshtein Levenshtein.defaultCost (c :: xs') (d :: ys') ≤
        1 + levenshtein Levenshtein.defaultCost xs' ys' := by
      rw [levenshtein_cons_cons]
      refine le_trans (Nat.min_le_right _ _) ?_
      refine le_trans (Nat.min_le_right _ _) ?_
      simp only [Levenshtein.defaultCost_substitute]
      split <;> omega
    omega
  | ins d _ ih =>
    rename_i xs' ys' n' _
    have : levenshtein Levenshtein.defaultCost xs' (d :: ys') ≤
        1 + levenshtein Levenshtein.defaultCost xs' ys' := by
      cases xs' with
      | nil => simp [lev_nil_left]
      | cons x xs'' =>
        rw [levenshtein_cons_cons]
        refine le_trans (Nat.min_le_right _ _) ?_
        refine le_trans (Nat.min_le_left _ _) ?_
        simp
    omega
  | del c _ ih =>
    rename_i xs' ys' n' _
    have : levenshtein Levenshtein.defaultCost (c :: xs') ys' ≤
        1 + levenshtein Levenshtein.defaultCost xs' ys' := by
      cases ys' with
      | nil => simp [lev_nil_right]
      | cons y ys'' =>
        rw [levenshtein_cons_cons]
        refine le_trans (Nat.min_le_left _ _) ?_
        simp
    omega

theorem editRel_of_lev : ∀ (N : Nat) (xs ys : List Char), xs.length + ys.length ≤ N →
    EditRel xs ys (levenshtein Levenshtein.defaultCost xs ys) := by
  intro N
  induction N with
  | zero =>
    intro xs ys h
    match xs, ys with
    | [], [] => simpa using EditRel.nil
    | x :: xs, ys => exact absurd h (by simp only [List.length_cons]; omega)
    | [], y :: ys => exact absurd h (by simp only [List.length_cons, List.length_nil]; omega)
  | succ N ih =>
    intro xs ys h
    match xs, ys with
    | [], [] => simpa using EditRel.nil
    | [], y :: ys =>
      rw [lev_nil_left]
      have := ih [] ys (by simp only [List.length_nil, List.length_cons] at h ⊢; omega)
      rw [lev_nil_left] at this
      exact EditRel.ins y this
    | x :: xs, [] =>
      rw [lev_nil_right]
      have := ih xs [] (by simp only [List.length_nil, List.length_cons] at h ⊢; omega)
      rw [lev_nil_right] at this
      exact EditRel.del x this
    | x :: xs, y :: ys =>
      have hlen : xs.length + (y :: ys).length ≤ N := by
        simp only [List.length_cons] at h ⊢; omega
      have hlen2 : (x :: xs).length + ys.length ≤ N := by
        simp only [List.length_cons] at h ⊢; omega
      have hlen3 : xs.length + ys.length ≤ N := by
        simp only [List.length_cons] at h ⊢; omega
      rw [levenshtein_cons_cons]
      simp only [Levenshtein.defaultCost_delete, Levenshtein.defaultCost_insert,
        Levenshtein.defaultCost_substitute]
      rcases min_choice (1 + levenshtein Levenshtein.defaultCost xs (y :: ys))
          (min (1 + levenshtein Levenshtein.defaultCost (x :: xs) ys)
            ((if x = y then 0 else 1) + levenshtein Levenshtein.defaultCost xs ys)) with
        hmin | hmin
      · rw [hmin, Nat.add_comm]
        exact EditRel.del x (ih xs (y :: ys) hlen)
      · rw [hmin]
        rcases min_choice (1 + levenshtein Levenshtein.defaultCost (x :: xs) ys)
            ((if x = y then 0 else 1) + levenshtein Levenshtein.defaultCost xs ys) with
          hmin2 | hmin2
        · rw [hmin2, Nat.add_comm]
          exact EditRel.ins y (ih (x :: xs) ys hlen2)
        · rw [hmin2]
          by_cases hxy : x = y
          · subst hxy
            simpa using EditRel.copy x (ih xs ys hlen3)
          · rw [if_neg hxy, Nat.add_comm]
            exact EditRel.subst x y (ih xs ys hlen3)

theorem editRel_self_lev (xs ys : List Char) :
    EditRel xs ys (levenshtein Levenshtein.defaultCost xs ys) :=
  editRel_of_lev (xs.length + ys.length) xs ys le_rfl

end Emenda

namespace Emenda

/-! ## Edit scripts under snoc, reversal, and swap -/

theorem editRel_snoc_copy {xs ys : List Char} {n : Nat} (c : Char) (h : EditRel xs ys n) :
    EditRel (xs ++ [c]) (ys ++ [c]) n := by
  induction h with
  | nil => exact EditRel.copy c EditRel.nil
  | copy c' _ ih => exact EditRel.copy c' ih
  | subst c' d' _ ih => exact EditRel.subst c' d' ih
  | ins d' _ ih => exact EditRel.ins d' ih
  | del c' _ ih => exact EditRel.del c' ih

theorem editRel_snoc_subst {xs ys : List Char} {n : Nat} (c d : Char) (h : EditRel xs ys n) :
    EditRel (xs ++ [c]) (ys ++ [d]) (n + 1) := by
  induction h with
  | nil => exact EditRel.subst c d EditRel.nil
  | copy c' _ ih => exact EditRel.copy c' ih
  | subst c' d' _ ih => exact EditRel.subst c' d' ih
  | ins d' _ ih => exact EditRel.ins d' ih
  | del c' _ ih => exact EditRel.del c' ih

theorem editRel_snoc_ins {xs ys : List Char} {n : Nat} (d : Char) (h : EditRel xs ys n) :
    EditRel xs (ys ++ [d]) (n + 1) := by
  induction h with
  | nil => exact EditRel.ins d EditRel.nil
  | copy c' _ ih => exact EditRel.copy c' ih
  | subst c' d' _ ih => exact EditRel.subst c' d' ih
  | ins d' _ ih => exact EditRel.ins d' ih
  | del c' _ ih => exact EditRel.del c' ih

theorem editRel_snoc_del {xs ys : List Char} {n : Nat} (c : Char) (h : EditRel xs ys n) :
    EditRel (xs ++ [c]) ys (n + 1) := by
  induction h with
  | nil => exact EditRel.del c EditRel.nil
  | copy c' _ ih => exact EditRel.copy c' ih
  | subst c' d' _ ih => exact EditRel.subst c' d' ih
  | ins d' _ ih => exact EditRel.ins d' ih
  | del c' _ ih => exact EditRel.del c' ih

theorem editRel_reverse {xs ys : List Char} {n : Nat} (h : EditRel xs ys n) :
    EditRel xs.reverse ys.reverse n := by
  induction h with
  | nil => exact EditRel.nil
  | copy c _ ih => simpa using editRel_snoc_copy c ih
  | subst c d _ ih => simpa using editRel_snoc_subst c d ih
  | ins d _ ih => simpa using editRel_snoc_ins d ih
  | del c _ ih => simpa using editRel_snoc_del c ih

theorem editRel_swap {xs ys : List Char} {n : Nat} (h : EditRel xs ys n) :
    EditRel ys xs n := by
  induction h with
  | nil => exact EditRel.nil
  | copy c _ ih => exact EditRel.copy c ih
  | subst c d _ ih => exact EditRel.subst d c ih
  | ins d _ ih => exact EditRel.del d ih
  | del c _ ih => exact EditRel.ins c ih

theorem lev_reverse (xs ys : List Char) :
    levenshtein Levenshtein.defaultCost xs.reverse ys.reverse =
      levenshtein Levenshtein.defaultCost xs ys := by
  refine le_antisymm ?_ ?_
  · exact lev_le_of_editRel (editRel_reverse (editRel_self_lev xs ys))
  · have := lev_le_of_editRel (editRel_reverse (editRel_self_lev xs.reverse ys.reverse))
    simpa using this

theorem levenshteinChars_eq_lev (a b : List Char) :
    levenshteinChars a b = levenshtein Levenshtein.defaultCost a b := by
  rw [levenshteinChars_eq_reverse, lev_reverse]

theorem editRel_nil_left_len (ys : List Char) : EditRel [] ys ys.length := by
  induction ys with
  | nil => exact EditRel.nil
  | cons y ys ih => exact EditRel.ins y ih

theorem editRel_max_len : ∀ (xs ys : List Char), EditRel xs ys (Nat.max xs.length ys.length) := by
  intro xs
  induction xs with
  | nil => intro ys; simpa using editRel_nil_left_len ys
  | cons x xs ih =>
    intro ys
    cases ys with
    | nil =>
      have : EditRel xs [] xs.length := editRel_swap (editRel_nil_left_len xs)
      simpa using EditRel.del x this
    | cons y ys =>
      have h := EditRel.subst x y (ih ys)
      have hm : Nat.max (x :: xs).length (y :: ys).length = Nat.max xs.length ys.length + 1 := by
        simp only [List.length_cons]
        exact Nat.succ_max_succ _ _
      rwa [hm]

/-- C10: the two-row dynamic-programming `levenshteinDistance` computes
the reference Levenshtein edit distance — the minimum number of paid
single-character substitutions, insertions and deletions transforming `a`
into `b` (`EditRel` scripts); consequently it is symmetric and bounded by
`max (len a) (len b)`, and `nameSimilarity` lies in `[0, 1]`. -/
theorem C10_levenshtein_reference (a b : String) :
    EditRel a.data b.data (levenshteinDistance a b) ∧
    (∀ n, EditRel a.data b.data n → levenshteinDistance a b ≤ n) ∧
    levenshteinDistance a b = levenshteinDistance b a ∧
    levenshteinDistance a b ≤ Nat.max a.length b.length ∧
    0 ≤ nameSimilarity a b ∧ nameSimilarity a b ≤ 1 := by
  have hda : a.length = a.data.length := rfl
  have hdb : b.length = b.data.length := rfl
  have hlev : levenshteinDistance a b =
      levenshtein Levenshtein.defaultCost a.data b.data :=
    levenshteinChars_eq_lev a.data b.data
  have hmin : EditRel a.data b.data (levenshteinDistance a b) := by
    rw [hlev]; exact editRel_self_lev _ _
  have hle : ∀ n, EditRel a.data b.data n → levenshteinDistance a b ≤ n := by
    intro n h
    rw [hlev]
    exact lev_le_of_editRel h
  have hsymm : levenshteinDistance a b = levenshteinDistance b a := by
    refine le_antisymm (hle _ (editRel_swap ?_)) ?_
    · rw [show levenshteinDistance b a =
          levenshtein Levenshtein.defaultCost b.data a.data from
        levenshteinChars_eq_lev b.data a.data]
      exact editRel_self_lev _ _
    · rw [show levenshteinDistance b a =
          levenshtein Levenshtein.defaultCost b.data a.data from
        levenshteinChars_eq_lev b.data a.data]
      exact lev_le_of_editRel (editRel_swap hmin)
  have hbound : levenshteinDistance a b ≤ Nat.max a.length b.length := by
    rw [hda, hdb]
    exact hle _ (editRel_max_len a.data b.data)
  refine ⟨hmin, hle, hsymm, hbound, ?_, ?_⟩
  · unfold nameSimilarity
    split
    · norm_num
    · next hcase =>
      have hmaxpos : 0 < Nat.max a.length b.length := by
        rcases Nat.eq_zero_or_pos a.length with ha | ha
        · rcases Nat.eq_zero_or_pos b.length with hb | hb
          · exact absurd ⟨ha, hb⟩ hcase
          · exact Nat.lt_of_lt_of_le hb (Nat.le_max_right _ _)
        · exact Nat.lt_of_lt_of_le ha (Nat.le_max_left _ _)
      have hq : ((levenshteinDistance a b : ℚ)) / ((Nat.max a.length b.length : Nat) : ℚ) ≤ 1 := by
        rw [div_le_one (by exact_mod_cast hmaxpos)]
        exact_mod_cast hbound
      linarith
  · unfold nameSimilarity
    split
    · norm_num
    · next hcase =>
      have hmaxpos : 0 < Nat.max a.length b.length := by
        rcases Nat.eq_zero_or_pos a.length with ha | ha
        · rcases Nat.eq_zero_or_pos b.length with hb | hb
          · exact absurd ⟨ha, hb⟩ hcase
          · exact Nat.lt_of_lt_of_le hb (Nat.le_max_right _ _)
        · exact Nat.lt_of_lt_of_le ha (Nat.le_max_left _ _)
      have hq : (0 : ℚ) ≤ ((levenshteinDistance a b : ℚ)) / ((Nat.max a.length b.length : Nat) : ℚ) := by
        positivity
      linarith

/-- C10 witness: a concrete edit script of cost 1 between `Get` and `Set`,
and the minimality bound instantiated on it. -/
theorem C10_levenshtein_reference_witness :
    EditRel "Get".data "Set".data 1 ∧ levenshteinDistance "Get" "Set" ≤ 1 := by
  have hscript : EditRel "Get".data "Set".data 1 := by
    show EditRel ['G', 'e', 't'] ['S', 'e', 't'] 1
    exact EditRel.subst 'G' 'S' (EditRel.copy 'e' (EditRel.copy 't' EditRel.nil))
  exact ⟨hscript, (C10_levenshtein_reference "Get" "Set").2.1 1 hscript⟩

end Emenda


namespace Emenda

/-! ## Per-pass frame and change-shape lemmas -/

theorem exactMatch_spec (s : diffState) :
    s.exactMatch.oldByKey = s.oldByKey ∧ s.exactMatch.newByKey = s.newByKey ∧
    s.exactMatch.oldSigs = s.oldSigs ∧ s.exactMatch.newSigs = s.newSigs ∧
    s.exactMatch.typeRenames = s.typeRenames ∧ s.exactMatch.changes = s.changes := by
  unfold diffState.exactMatch
  exact @foldl_inv diffState symbolKey
    (fun t => t.oldByKey = s.oldByKey ∧ t.newByKey = s.newByKey ∧
      t.oldSigs = s.oldSigs ∧ t.newSigs = s.newSigs ∧
      t.typeRenames = s.typeRenames ∧ t.changes = s.changes)
    _ _ _ ⟨rfl, rfl, rfl, rfl, rfl, rfl⟩
    (by
      intro t k _ h
      dsimp only
      split
      · exact h
      · split
        · exact h
        · exact h)

theorem changedPartA_spec (s : diffState) :
    s.changedPartA.oldByKey = s.oldByKey ∧ s.changedPartA.newByKey = s.newByKey ∧
    s.changedPartA.oldSigs = s.oldSigs ∧ s.changedPartA.newSigs = s.newSigs ∧
    s.changedPartA.typeRenames = s.typeRenames ∧
    ∀ c ∈ s.changedPartA.changes, c ∈ s.changes ∨ c.confidence = ConfidenceHigh := by
  unfold diffState.changedPartA diffState.unmatchedOld
  exact @foldl_inv diffState symbolKey
    (fun t => t.oldByKey = s.oldByKey ∧ t.newByKey = s.newByKey ∧
      t.oldSigs = s.oldSigs ∧ t.newSigs = s.newSigs ∧
      t.typeRenames = s.typeRenames ∧
      ∀ c ∈ t.changes, c ∈ s.changes ∨ c.confidence = ConfidenceHigh)
    _ _ _ ⟨rfl, rfl, rfl, rfl, rfl, fun c hc => Or.inl hc⟩
    (by
      intro t k _ h
      dsimp only
      split
      · exact h
      · split
        · exact h
        · obtain ⟨h1, h2, h3, h4, h5, h6⟩ := h
          refine ⟨h1, h2, h3, h4, h5, ?_⟩
          intro c hc
          rcases List.mem_append.mp hc with hc | hc
          · exact h6 c hc
          · simp only [List.mem_singleton] at hc
            subst hc
            exact Or.inr rfl)

theorem changedPartB_spec (s : diffState) :
    s.changedPartB.oldByKey = s.oldByKey ∧ s.changedPartB.newByKey = s.newByKey ∧
    s.changedPartB.oldSigs = s.oldSigs ∧ s.changedPartB.newSigs = s.newSigs ∧
    s.changedPartB.typeRenames = s.typeRenames ∧
    ∀ c ∈ s.changedPartB.changes, c ∈ s.changes ∨ c.confidence = ConfidenceHigh := by
  unfold diffState.changedPartB diffState.unmatchedOld diffState.unmatchedNew
  exact @foldl_inv diffState (nameKey × symbolKey)
    (fun t => t.oldByKey = s.oldByKey ∧ t.newByKey = s.newByKey ∧
      t.oldSigs = s.oldSigs ∧ t.newSigs = s.newSigs ∧
      t.typeRenames = s.typeRenames ∧
      ∀ c ∈ t.changes, c ∈ s.changes ∨ c.confidence = ConfidenceHigh)
    _ _ _ ⟨rfl, rfl, rfl, rfl, rfl, fun c hc => Or.inl hc⟩
    (by
      intro t e _ h
      dsimp only
      split
      · exact h
      · split
        · exact h
        · obtain ⟨h1, h2, h3, h4, h5, h6⟩ := h
          refine ⟨h1, h2, h3, h4, h5, ?_⟩
          intro c hc
          rcases List.mem_append.mp hc with hc | hc
          · exact h6 c hc
          · simp only [List.mem_singleton] at hc
            subst hc
            exact Or.inr rfl)

theorem changed_spec (s : diffState) :
    s.changed.oldByKey = s.oldByKey ∧ s.changed.newByKey = s.newByKey ∧
    s.changed.oldSigs = s.oldSigs ∧ s.changed.newSigs = s.newSigs ∧
    s.changed.typeRenames = s.typeRenames ∧
    ∀ c ∈ s.changed.changes, c ∈ s.changes ∨ c.confidence = ConfidenceHigh := by
  obtain ⟨a1, a2, a3, a4, a5, a6⟩ := changedPartA_spec s
  obtain ⟨b1, b2, b3, b4, b5, b6⟩ := changedPartB_spec s.changedPartA
  unfold diffState.changed
  refine ⟨b1.trans a1, b2.trans a2, b3.trans a3, b4.trans a4, b5.trans a5, ?_⟩
  intro c hc
  rcases b6 c hc with hc' | hc'
  · exact a6 c hc'
  · exact Or.inr hc'

theorem renamed_spec (s : diffState) :
    s.renamed.oldByKey = s.oldByKey ∧ s.renamed.newByKey = s.newByKey ∧
    s.renamed.oldSigs = s.oldSigs ∧ s.renamed.newSigs = s.newSigs ∧
    ∀ c ∈ s.renamed.changes, c ∈ s.changes ∨
      (c.kind = ChangeKindRenamed ∧ c.confidence = ConfidenceHigh ∧
       c.oldSignature ≠ "" ∧ c.oldSignature ≠ "()") := by
  unfold diffState.renamed diffState.unmatchedOld diffState.unmatchedNew
  exact @foldl_inv diffState (sigGroupKey × List symbolKey)
    (fun t => t.oldByKey = s.oldByKey ∧ t.newByKey = s.newByKey ∧
      t.oldSigs = s.oldSigs ∧ t.newSigs = s.newSigs ∧
      ∀ c ∈ t.changes, c ∈ s.changes ∨
        (c.kind = ChangeKindRenamed ∧ c.confidence = ConfidenceHigh ∧
         c.oldSignature ≠ "" ∧ c.oldSignature ≠ "()"))
    _ _ _ ⟨rfl, rfl, rfl, rfl, fun c hc => Or.inl hc⟩
    (by
      intro t e _ h
      dsimp only
      split
      · exact h
      · split
        · exact h
        · split
          · exact h
          · next hguard =>
            push_neg at hguard
            obtain ⟨h1, h2, h3, h4, h5⟩ := h
            split
            all_goals {
              refine ⟨h1, h2, h3, h4, ?_⟩
              intro c hc
              rcases List.mem_append.mp hc with hc | hc
              · exact h5 c hc
              · simp only [List.mem_singleton] at hc
                subst hc
                exact Or.inr ⟨rfl, rfl, hguard.1, hguard.2⟩ })

theorem correlateMethods_spec (s : diffState) :
    s.correlateMethods.oldByKey = s.oldByKey ∧ s.correlateMethods.newByKey = s.newByKey ∧
    s.correlateMethods.oldSigs = s.oldSigs ∧ s.correlateMethods.newSigs = s.newSigs ∧
    ∀ c ∈ s.correlateMethods.changes, c ∈ s.changes ∨ c.confidence = ConfidenceHigh := by
  unfold diffState.correlateMethods diffState.unmatchedOld
  split
  · exact ⟨rfl, rfl, rfl, rfl, fun c hc => Or.inl hc⟩
  · exact @foldl_inv diffState symbolKey
      (fun t => t.oldByKey = s.oldByKey ∧ t.newByKey = s.newByKey ∧
        t.oldSigs = s.oldSigs ∧ t.newSigs = s.newSigs ∧
        ∀ c ∈ t.changes, c ∈ s.changes ∨ c.confidence = ConfidenceHigh)
      _ _ _ ⟨rfl, rfl, rfl, rfl, fun c hc => Or.inl hc⟩
      (by
        intro t k _ h
        dsimp only
        split
        · exact h
        · split
          · exact h
          · split
            · exact h
            · split
              · obtain ⟨h1, h2, h3, h4, h5⟩ := h
                refine ⟨h1, h2, h3, h4, ?_⟩
                intro c hc
                simp only [diffState.markMatched, diffState.emit] at hc
                rcases List.mem_append.mp hc with hc | hc
                · exact h5 c hc
                · simp only [List.mem_singleton] at hc
                  subst hc
                  split
                  · exact Or.inr rfl
                  · exact Or.inr rfl
              · exact h)

end Emenda

namespace Emenda

/-! ## Stable-sort and candidate membership -/

theorem mem_stableInsert {α : Type} (less : α → α → Bool) (x a : α) :
    ∀ (l : List α), a ∈ stableInsert less x l ↔ a = x ∨ a ∈ l := by
  intro l
  induction l with
  | nil => simp [stableInsert]
  | cons y ys ih =>
    simp only [stableInsert]
    split
    · simp
    · simp only [List.mem_cons, ih]
      tauto

theorem mem_stableSort {α : Type} (less : α → α → Bool) (l : List α) (a : α) :
    a ∈ stableSort less l ↔ a ∈ l := by
  have aux : ∀ (l acc : List α),
      a ∈ l.foldl (fun acc x => stableInsert less x acc) acc ↔ a ∈ acc ∨ a ∈ l := by
    intro l
    induction l with
    | nil => simp
    | cons x xs ih =>
      intro acc
      simp only [List.foldl_cons, ih, mem_stableInsert, List.mem_cons]
      tauto
  simpa [stableSort] using aux l []

theorem mem_fuzzyCandidates (s : diffState) (oldF newF : List symbolKey) (p : scoredPair)
    (hp : p ∈ fuzzyCandidates s oldF newF) :
    ∃ ko ∈ oldF, ∃ kn ∈ newF,
      (let oldSym := (alookup s.oldByKey ko).getD default
       let newSym := (alookup s.newByKey kn).getD default
       let oldSig := (alookup s.oldSigs ko).getD default
       let newSig := (alookup s.newSigs kn).getD default
       nameSimilarity oldSym.name newSym.name ≥ fuzzyThreshold oldSym.name newSym.name ∧
       paramOverlap oldSig newSig ≥ MinParamOverlap ∧
       p = { oldKey := ko, newKey := kn,
             score := nameSimilarity oldSym.name newSym.name * paramOverlap oldSig newSig,
             oldName := oldSym.name }) := by
  revert hp
  unfold fuzzyCandidates
  refine @foldl_inv (List scoredPair) symbolKey
    (fun cs => p ∈ cs →
      ∃ ko ∈ oldF, ∃ kn ∈ newF,
        (let oldSym := (alookup s.oldByKey ko).getD default
         let newSym := (alookup s.newByKey kn).getD default
         let oldSig := (alookup s.oldSigs ko).getD default
         let newSig := (alookup s.newSigs kn).getD default
         nameSimilarity oldSym.name newSym.name ≥ fuzzyThreshold oldSym.name newSym.name ∧
         paramOverlap oldSig newSig ≥ MinParamOverlap ∧
         p = { oldKey := ko, newKey := kn,
               score := nameSimilarity oldSym.name newSym.name * paramOverlap oldSig newSig,
               oldName := oldSym.name }))
    _ _ _ (by intro h; cases h) ?_
  intro cs ko hko h
  dsimp only
  refine @foldl_inv (List scoredPair) symbolKey
    (fun cs => p ∈ cs →
      ∃ ko ∈ oldF, ∃ kn ∈ newF,
        (let oldSym := (alookup s.oldByKey ko).getD default
         let newSym := (alookup s.newByKey kn).getD default
         let oldSig := (alookup s.oldSigs ko).getD default
         let newSig := (alookup s.newSigs kn).getD default
         nameSimilarity oldSym.name newSym.name ≥ fuzzyThreshold oldSym.name newSym.name ∧
         paramOverlap oldSig newSig ≥ MinParamOverlap ∧
         p = { oldKey := ko, newKey := kn,
               score := nameSimilarity oldSym.name newSym.name * paramOverlap oldSig newSig,
               oldName := oldSym.name }))
    _ _ _ h ?_
  intro cs' kn hkn h'
  dsimp only
  split
  · next hcond =>
    intro hmem
    rcases List.mem_append.mp hmem with hmem | hmem
    · exact h' hmem
    · simp only [List.mem_singleton] at hmem
      exact ⟨ko, hko, kn, hkn, hcond.1, hcond.2, hmem⟩
  · exact h'

end Emenda

namespace Emenda

theorem fuzzyMatch_eq (s : diffState) :
    s.fuzzyMatch =
      if (s.unmatchedOldSet.filter (fun key => (alookup s.oldSigs key).isSome)).length = 0 ∨
         (s.unmatchedNewSet.filter (fun key => (alookup s.newSigs key).isSome)).length = 0 then s
      else
        (stableSort fuzzyLess (fuzzyCandidates s
            (s.unmatchedOldSet.filter (fun key => (alookup s.oldSigs key).isSome))
            (s.unmatchedNewSet.filter (fun key => (alookup s.newSigs key).isSome)))).foldl
          (fun s pair =>
            if pair.oldKey ∈ s.unmatchedOldSet then
              if pair.newKey ∈ s.unmatchedNewSet then
                let oldSym := (alookup s.oldByKey pair.oldKey).getD default
                let newSym := (alookup s.newByKey pair.newKey).getD default
                let c : Change :=
                  { kind := ChangeKindRenamed, symbol := oldSym.name,
                    package := oldSym.package, newName := newSym.name,
                    oldSignature := oldSym.signature, newSignature := newSym.signature,
                    confidence := ConfidenceMedium }
                (s.emit c).markMatched pair.oldKey pair.newKey
              else s
            else s) s := rfl

theorem fuzzyMatch_spec (s : diffState) :
    s.fuzzyMatch.oldByKey = s.oldByKey ∧ s.fuzzyMatch.newByKey = s.newByKey ∧
    s.fuzzyMatch.oldSigs = s.oldSigs ∧ s.fuzzyMatch.newSigs = s.newSigs ∧
    ∀ c ∈ s.fuzzyMatch.changes, c ∈ s.changes ∨ fuzzyEmitted s c := by
  rw [fuzzyMatch_eq]
  split
  · exact ⟨rfl, rfl, rfl, rfl, fun c hc => Or.inl hc⟩
  · refine @foldl_inv diffState scoredPair
      (fun t => t.oldByKey = s.oldByKey ∧ t.newByKey = s.newByKey ∧
        t.oldSigs = s.oldSigs ∧ t.newSigs = s.newSigs ∧
        ∀ c ∈ t.changes, c ∈ s.changes ∨ fuzzyEmitted s c)
      _ _ _ ⟨rfl, rfl, rfl, rfl, fun c hc => Or.inl hc⟩ ?_
    intro t pair hpair h
    dsimp only
    split
    · split
      · obtain ⟨h1, h2, h3, h4, h5⟩ := h
        refine ⟨h1, h2, h3, h4, ?_⟩
        intro c hc
        simp only [diffState.markMatched, diffState.emit] at hc
        rcases List.mem_append.mp hc with hc | hc
        · exact h5 c hc
        · simp only [List.mem_singleton] at hc
          subst hc
          refine Or.inr ?_
          have hp := (mem_stableSort _ _ _).mp hpair
          obtain ⟨ko, hko, kn, hkn, hcond⟩ := mem_fuzzyCandidates s _ _ pair hp
          obtain ⟨hcond1, hcond2, hpairEq⟩ := hcond
          obtain ⟨hkoSet, hkoSig⟩ := List.mem_filter.mp hko
          obtain ⟨hknSet, hknSig⟩ := List.mem_filter.mp hkn
          obtain ⟨oSig, hoSig⟩ := Option.isSome_iff_exists.mp (by simpa using hkoSig)
          obtain ⟨nSig, hnSig⟩ := Option.isSome_iff_exists.mp (by simpa using hknSig)
          refine ⟨ko, kn, oSig, nSig, hkoSet, hknSet, hoSig, hnSig, ?_, ?_, ?_⟩
          · rw [hpairEq, h1, h2]
          · simpa using hcond1
          · have : (alookup s.oldSigs ko).getD default = oSig := by rw [hoSig]; rfl
            have h2' : (alookup s.newSigs kn).getD default = nSig := by rw [hnSig]; rfl
            rw [← this, ← h2']
            simpa using hcond2
      · exact h
    · exact h

theorem leftovers_spec (s : diffState) :
    s.leftovers.oldByKey = s.oldByKey ∧ s.leftovers.newByKey = s.newByKey ∧
    s.leftovers.oldSigs = s.oldSigs ∧ s.leftovers.newSigs = s.newSigs ∧
    ∀ c ∈ s.leftovers.changes, c ∈ s.changes ∨
      (c.kind = ChangeKindRemoved ∧ c.confidence = ConfidenceLow) := by
  have hfields : s.leftovers.oldByKey = s.oldByKey ∧ s.leftovers.newByKey = s.newByKey ∧
      s.leftovers.oldSigs = s.oldSigs ∧ s.leftovers.newSigs = s.newSigs := by
    unfold diffState.leftovers
    exact @foldl_inv diffState symbolKey
      (fun t => t.oldByKey = s.oldByKey ∧ t.newByKey = s.newByKey ∧
        t.oldSigs = s.oldSigs ∧ t.newSigs = s.newSigs)
      _ _ _ ⟨rfl, rfl, rfl, rfl⟩ (fun t k _ h => h)
  refine ⟨hfields.1, hfields.2.1, hfields.2.2.1, hfields.2.2.2, ?_⟩
  intro c hc
  rw [leftovers_changes] at hc
  rcases List.mem_append.mp hc with hc | hc
  · exact Or.inl hc
  · obtain ⟨k, _, hk⟩ := List.mem_map.mp hc
    subst hk
    exact Or.inr ⟨rfl, rfl⟩

end Emenda

namespace Emenda

/-- C3: every `renamed` / MEDIUM change in the output of `DiffExports`
comes from a pair of symbols that were still unmatched when Pass 5 ran,
are both present in the signature maps, and passed the fuzzy filter:
`nameSimilarity ≥ threshold` (with the short-name guard raising the
threshold from 0.7 to 0.85 when `max(len(oldName), len(newName)) < 4`)
and `paramOverlap ≥ 0.8`; the change's fields are exactly those of the
pair.  A pair failing either bound is never emitted as a MEDIUM rename. -/
theorem C3_pass5_acceptance (old new : Symbols) (oldSigs newSigs : FuncSigMap) (c : Change)
    (hc : c ∈ DiffExports old new oldSigs newSigs)
    (hkind : c.kind = ChangeKindRenamed) (hconf : c.confidence = ConfidenceMedium) :
    fuzzyEmitted (stateAfterPass4 old new oldSigs newSigs) c ∧
    (stateAfterPass4 old new oldSigs newSigs).oldByKey = buildByKey old.entries ∧
    (stateAfterPass4 old new oldSigs newSigs).newByKey = buildByKey new.entries ∧
    (stateAfterPass4 old new oldSigs newSigs).oldSigs = oldSigs ∧
    (stateAfterPass4 old new oldSigs newSigs).newSigs = newSigs := by
  set s0 := newDiffState old new oldSigs newSigs with hs0
  set s1 := s0.exactMatch with hs1
  set s2 := s1.changed with hs2
  set s3 := s2.renamed with hs3
  set s4 := s3.correlateMethods with hs4
  set s5 := s4.fuzzyMatch with hs5
  have hs4' : stateAfterPass4 old new oldSigs newSigs = s4 := rfl
  have hc' : c ∈ s5.leftovers.changes := hc
  have hmedlow : ConfidenceMedium ≠ ConfidenceLow := by decide
  have hmedhigh : ConfidenceMedium ≠ ConfidenceHigh := by decide
  rcases (leftovers_spec s5).2.2.2.2 c hc' with hc5 | ⟨_, hlow⟩
  · rcases (fuzzyMatch_spec s4).2.2.2.2 c hc5 with hc4 | hfz
    · rcases (correlateMethods_spec s3).2.2.2.2 c hc4 with hc3 | hhigh
      · rcases (renamed_spec s2).2.2.2.2 c hc3 with hc2 | ⟨_, hhigh, _, _⟩
        · rcases (changed_spec s1).2.2.2.2.2 c hc2 with hc1 | hhigh
          · rw [(exactMatch_spec s0).2.2.2.2.2] at hc1
            cases hc1
          · exact absurd (hconf.symm.trans hhigh) hmedhigh
        · exact absurd (hconf.symm.trans hhigh) hmedhigh
      · exact absurd (hconf.symm.trans hhigh) hmedhigh
    · refine ⟨hs4' ▸ hfz, ?_, ?_, ?_, ?_⟩
      · rw [hs4']
        rw [(correlateMethods_spec s3).1, (renamed_spec s2).1, (changed_spec s1).1,
          (exactMatch_spec s0).1]
        rfl
      · rw [hs4']
        rw [(correlateMethods_spec s3).2.1, (renamed_spec s2).2.1, (changed_spec s1).2.1,
          (exactMatch_spec s0).2.1]
        rfl
      · rw [hs4']
        rw [(correlateMethods_spec s3).2.2.1, (renamed_spec s2).2.2.1, (changed_spec s1).2.2.1,
          (exactMatch_spec s0).2.2.1]
        rfl
      · rw [hs4']
        rw [(correlateMethods_spec s3).2.2.2.1, (renamed_spec s2).2.2.2.1,
          (changed_spec s1).2.2.2.1, (exactMatch_spec s0).2.2.2.1]
        rfl
  · exact absurd (hconf.symm.trans hlow) hmedlow

set_option maxRecDepth 40000 in
unseal Rat.inv Rat.mul Rat.add Rat.sub in
/-- C3 witness: scenario S8 (`ProcessRequest` → `ProcessReq`) emits a
MEDIUM rename, and the theorem instantiates on it. -/
theorem C3_pass5_acceptance_witness :
    exS8Change ∈ DiffExports exS8Old exS8New exS8OldSigs exS8NewSigs ∧
    exS8Change.kind = ChangeKindRenamed ∧ exS8Change.confidence = ConfidenceMedium ∧
    fuzzyEmitted (stateAfterPass4 exS8Old exS8New exS8OldSigs exS8NewSigs) exS8Change :=
  ⟨by decide, rfl, rfl,
    (C3_pass5_acceptance exS8Old exS8New exS8OldSigs exS8NewSigs exS8Change
      (by decide) rfl rfl).1⟩

/-- C4: the trivial-signature guard. (1) Pass 3 never emits a new change
whose old signature is empty or `()`: any change of `s.renamed` with a
trivial `oldSignature` was already present before the pass. (2) On the
`OldInit` / `NewSetup` scenario (both plain functions of signature `()`),
no `renamed` change with HIGH confidence appears anywhere in the full
engine output. -/
theorem C4_trivial_signature_guard :
    (∀ (s : diffState) (c : Change), c ∈ s.renamed.changes →
        c.oldSignature = "" ∨ c.oldSignature = "()" → c ∈ s.changes) ∧
    ∀ c ∈ DiffExports exS5Old exS5New [] [],
      ¬(c.kind = ChangeKindRenamed ∧ c.confidence = ConfidenceHigh) := by
  constructor
  · intro s c hc htriv
    rcases (renamed_spec s).2.2.2.2 c hc with h | ⟨_, _, hne, hnp⟩
    · exact h
    · rcases htriv with h | h
      · exact absurd h hne
      · exact absurd h hnp
  · intro c hc
    have hout : DiffExports exS5Old exS5New [] [] = [exS5Change] := by decide
    rw [hout] at hc
    simp only [List.mem_singleton] at hc
    subst hc
    intro h
    exact absurd h.1 (by decide)

/-- C4 witness: the single `removed` / LOW change the engine emits on the
trivial-signature scenario is not a HIGH rename. -/
theorem C4_trivial_signature_guard_witness :
    exS5Change ∈ DiffExports exS5Old exS5New [] [] ∧
    ¬(exS5Change.kind = ChangeKindRenamed ∧ exS5Change.confidence = ConfidenceHigh) :=
  ⟨by decide, C4_trivial_signature_guard.2 exS5Change (by decide)⟩

theorem correlateMethods_eq (s : diffState) :
    s.correlateMethods = if s.typeRenames.length = 0 then s
      else s.unmatchedOld.foldl correlateStep s := rfl

theorem correlateStep_frame (t : diffState) (k : symbolKey) :
    (correlateStep t k).oldByKey = t.oldByKey ∧
    (correlateStep t k).newByKey = t.newByKey ∧
    (correlateStep t k).typeRenames = t.typeRenames := by
  unfold correlateStep
  dsimp only
  split
  · exact ⟨rfl, rfl, rfl⟩
  · split
    · exact ⟨rfl, rfl, rfl⟩
    · split
      · exact ⟨rfl, rfl, rfl⟩
      · split
        · simp [diffState.emit, diffState.markMatched]
        · exact ⟨rfl, rfl, rfl⟩

theorem correlateStep_changes_mono (t : diffState) (k : symbolKey) (c : Change)
    (hc : c ∈ t.changes) : c ∈ (correlateStep t k).changes := by
  unfold correlateStep
  dsimp only
  split
  · exact hc
  · split
    · exact hc
    · split
      · exact hc
      · split
        · simp only [diffState.emit, diffState.markMatched]
          exact List.mem_append_left _ hc
        · exact hc

/-- C5: Pass 4 member correlation. (1) General form: if an unmatched old
key resolves to a method/field symbol whose receiver part was renamed in
Pass 3, the expected new key is still unmatched, and no other unmatched
old key competes for the same expected new key, then the pass emits the
HIGH change (`renamed` on equal signatures, `signature_changed`
otherwise). (2) On scenario S7 (`Client` → `HTTPClient` with members
`Do` and `Host`), each of the three HIGH renames appears in the full
engine output. -/
theorem C5_member_correlation :
    (∀ (s : diffState) (oldKey : symbolKey) (oldSym newSym : Symbol)
       (recv member newReceiver : String),
      oldKey ∈ s.unmatchedOld →
      alookup s.oldByKey oldKey = some oldSym →
      (oldSym.kind = SymbolMethod ∨ oldSym.kind = SymbolField) →
      splitReceiverMember oldSym.name = some (recv, member) →
      alookup s.typeRenames recv = some newReceiver →
      (⟨oldSym.package, oldSym.kind, newReceiver ++ "." ++ member⟩ : symbolKey)
        ∈ s.unmatchedNewSet →
      alookup s.newByKey
        ⟨oldSym.package, oldSym.kind, newReceiver ++ "." ++ member⟩ = some newSym →
      (∀ k' ∈ s.unmatchedOld,
        expectedKeyOf s k' =
          some ⟨oldSym.package, oldSym.kind, newReceiver ++ "." ++ member⟩ →
        k' = oldKey) →
      correlatedChange oldSym newSym ∈ s.correlateMethods.changes) ∧
    (∀ c ∈ exS7Changes,
      c ∈ DiffExports exS7Old exS7New [] [] ∧
      c.kind = ChangeKindRenamed ∧ c.confidence = ConfidenceHigh) := by
  constructor
  · intro s oldKey oldSym newSym recv member newReceiver h1 h2 h3 h4 h5 h6 h7 hH
    have hkindc : ¬(oldSym.kind ≠ SymbolMethod ∧ oldSym.kind ≠ SymbolField) := by
      rcases h3 with h | h <;> simp [h]
    have hTRne : ¬s.typeRenames.length = 0 := by
      intro h0
      rw [List.length_eq_zero] at h0
      rw [h0] at h5
      exact absurd h5 (by simp [alookup])
    have hpres : ∀ (t : diffState) (k' : symbolKey), k' ∈ s.unmatchedOld →
        (t.oldByKey = s.oldByKey ∧ t.newByKey = s.newByKey ∧
         t.typeRenames = s.typeRenames ∧
         ((⟨oldSym.package, oldSym.kind, newReceiver ++ "." ++ member⟩ : symbolKey)
            ∈ t.unmatchedNewSet ∨
          correlatedChange oldSym newSym ∈ t.changes)) →
        ((correlateStep t k').oldByKey = s.oldByKey ∧
         (correlateStep t k').newByKey = s.newByKey ∧
         (correlateStep t k').typeRenames = s.typeRenames ∧
         ((⟨oldSym.package, oldSym.kind, newReceiver ++ "." ++ member⟩ : symbolKey)
            ∈ (correlateStep t k').unmatchedNewSet ∨
          correlatedChange oldSym newSym ∈ (correlateStep t k').changes)) := by
      intro t k' hk' hQ
      obtain ⟨hOld, hNew, hTR, hDisj⟩ := hQ
      obtain ⟨f1, f2, f3⟩ := correlateStep_frame t k'
      refine ⟨f1.trans hOld, f2.trans hNew, f3.trans hTR, ?_⟩
      rcases hDisj with hK | hc
      · unfold correlateStep
        dsimp only
        rw [hOld, hNew, hTR]
        split
        · exact Or.inl hK
        · split
          · exact Or.inl hK
          · next rm hsplit =>
            split
            · exact Or.inl hK
            · next nr hlook =>
              split
              · next hmem =>
                simp only [diffState.emit, diffState.markMatched]
                by_cases hKK :
                    (⟨((alookup s.oldByKey k').getD default).package,
                      ((alookup s.oldByKey k').getD default).kind,
                      nr ++ "." ++ rm.2⟩ : symbolKey) =
                    ⟨oldSym.package, oldSym.kind, newReceiver ++ "." ++ member⟩
                · have hexp : expectedKeyOf s k' =
                      some ⟨oldSym.package, oldSym.kind, newReceiver ++ "." ++ member⟩ := by
                    unfold expectedKeyOf
                    rw [if_neg (by assumption), hsplit]
                    dsimp only
                    rw [hlook]
                    dsimp only
                    rw [hKK]
                  have hko : k' = oldKey := hH k' hk' hexp
                  subst hko
                  have hsym : (alookup s.oldByKey k').getD default = oldSym := by
                    rw [h2]
                    rfl
                  rw [hsym] at hsplit hKK
                  have hrm : (recv, member) = rm := Option.some.inj (h4.symm.trans hsplit)
                  rw [← hrm] at hlook hKK
                  have hnr : nr = newReceiver := Option.some.inj (hlook.symm.trans h5)
                  refine Or.inr (List.mem_append_right _ ?_)
                  simp only [List.mem_singleton]
                  rw [hsym, ← hrm, hnr]
                  simp only [h7, Option.getD_some]
                · refine Or.inl ((mem_serase _ _ _).mpr ⟨hK, fun h => hKK h.symm⟩)
              · exact Or.inl hK
      · exact Or.inr (correlateStep_changes_mono t k' _ hc)
    rw [correlateMethods_eq, if_neg hTRne]
    obtain ⟨l1, l2, hl⟩ := List.append_of_mem h1
    rw [hl, List.foldl_append, List.foldl_cons]
    have hQ1 := @foldl_inv diffState symbolKey
      (fun t => t.oldByKey = s.oldByKey ∧ t.newByKey = s.newByKey ∧
        t.typeRenames = s.typeRenames ∧
        ((⟨oldSym.package, oldSym.kind, newReceiver ++ "." ++ member⟩ : symbolKey)
           ∈ t.unmatchedNewSet ∨
         correlatedChange oldSym newSym ∈ t.changes))
      correlateStep l1 s ⟨rfl, rfl, rfl, Or.inl h6⟩
      (fun t k' hk' hQ =>
        hpres t k' (by rw [hl]; exact List.mem_append_left _ hk') hQ)
    have h0 : ∀ t1 : diffState, t1.oldByKey = s.oldByKey → t1.newByKey = s.newByKey →
        t1.typeRenames = s.typeRenames →
        ((⟨oldSym.package, oldSym.kind, newReceiver ++ "." ++ member⟩ : symbolKey)
           ∈ t1.unmatchedNewSet ∨ correlatedChange oldSym newSym ∈ t1.changes) →
        correlatedChange oldSym newSym ∈ (correlateStep t1 oldKey).changes := by
      intro t1 hOld1 hNew1 hTR1 hDisj1
      rcases hDisj1 with hK1 | hc1
      · unfold correlateStep
        dsimp only
        rw [hOld1, hNew1, hTR1, h2]
        simp only [Option.getD_some]
        rw [if_neg hkindc, h4]
        dsimp only
        rw [h5]
        dsimp only
        rw [if_pos hK1]
        rw [h7]
        simp only [Option.getD_some, diffState.emit, diffState.markMatched]
        exact List.mem_append_right _ (by simp)
      · exact correlateStep_changes_mono _ oldKey _ hc1
    obtain ⟨hOld1, hNew1, hTR1, hDisj1⟩ := hQ1
    exact @foldl_inv diffState symbolKey
      (fun t => correlatedChange oldSym newSym ∈ t.changes)
      correlateStep l2 _ (h0 _ hOld1 hNew1 hTR1 hDisj1)
      (fun t k' _ hc => correlateStep_changes_mono t k' _ hc)
  · intro c hc
    fin_cases hc <;> exact ⟨by decide, by decide, by decide⟩

set_option maxRecDepth 20000 in
/-- C5 witness: on `exC5State` (member `Client.Do` over the recorded type
rename `Client` → `HTTPClient`, with a changed signature) the pass emits
the `signature_changed` / HIGH change. -/
theorem C5_member_correlation_witness :
    exC5Change ∈ exC5State.correlateMethods.changes := by
  have h := C5_member_correlation.1 exC5State ⟨"mod", SymbolMethod, "Client.Do"⟩
    ⟨"Client.Do", SymbolMethod, "mod", "Client", "(string) error"⟩
    ⟨"HTTPClient.Do", SymbolMethod, "mod", "HTTPClient", "(string, bool) error"⟩
    "Client" "Do" "HTTPClient"
    (by decide) (by decide) (by decide) (by decide) (by decide) (by decide)
    (by decide) (by decide)
  have e : correlatedChange
      ⟨"Client.Do", SymbolMethod, "mod", "Client", "(string) error"⟩
      ⟨"HTTPClient.Do", SymbolMethod, "mod", "HTTPClient", "(string, bool) error"⟩ =
      exC5Change := by decide
  exact e ▸ h

/-- C7 counterexample: the engine output depends on Go map iteration
order, already in the Pass 1–5 prefix.  With two symbols whose signatures
both changed, two admissible runs that differ only in the order of the
Pass 2A `unmatchedOld()` snapshot produce different output lists, so
identical inputs need not give byte-identical (or even prefix-identical)
output across runs. -/
theorem C7_map_order_counterexample :
    OrdersAdmissible exC7Old exC7New [] [] [exC7KeyA, exC7KeyB] [exC7KeyA, exC7KeyB]
      [] [] [] [] [] [] [] [] [] [] ∧
    OrdersAdmissible exC7Old exC7New [] [] [exC7KeyA, exC7KeyB] [exC7KeyB, exC7KeyA]
      [] [] [] [] [] [] [] [] [] [] ∧
    DiffExportsOrd exC7Old exC7New [] [] [exC7KeyA, exC7KeyB] [exC7KeyA, exC7KeyB]
      [] [] [] [] [] [] [] [] ≠
    DiffExportsOrd exC7Old exC7New [] [] [exC7KeyA, exC7KeyB] [exC7KeyB, exC7KeyA]
      [] [] [] [] [] [] [] [] :=
  ⟨by unfold OrdersAdmissible; decide, by unfold OrdersAdmissible; decide, by decide⟩

/-- C7 (amended): determinism is relative to the map-iteration orders.
(1) The output is a function of the inputs together with the iteration
orders of the engine's map loops, and the model's insertion-order run is
one admissible run, reproducing `DiffExports` exactly.  (2) Whatever
orders passes 1–5 followed, two runs that agree on them and differ only
in Pass 6's iteration order produce outputs that are permutations of
each other.  Runs differing in an earlier pass's order can differ
already in the prefix (see the counterexample), so nothing stronger than
(1) holds across arbitrary runs. -/
theorem C7_determinism_relative_to_orders :
    (∀ (old new : Symbols) (oldSigs newSigs : FuncSigMap),
      ∃ o1 o2 bO bN oE gO gN gE o4 fO fN o6,
        OrdersAdmissible old new oldSigs newSigs o1 o2 bO bN oE gO gN gE o4 fO fN o6 ∧
        DiffExportsOrd old new oldSigs newSigs o1 o2 bN oE gN gE o4 fO fN o6 =
          DiffExports old new oldSigs newSigs) ∧
    (∀ (old new : Symbols) (oldSigs newSigs : FuncSigMap)
       (o1 o2 : List symbolKey) (bN : List symbolKey) (oE : List (nameKey × symbolKey))
       (gN : List symbolKey) (gE : List (sigGroupKey × List symbolKey))
       (o4 fO fN o6 o6' : List symbolKey),
      o6.Perm (stateBeforePass6 old new oldSigs newSigs
        o1 o2 bN oE gN gE o4 fO fN).unmatchedOldSet →
      o6'.Perm (stateBeforePass6 old new oldSigs newSigs
        o1 o2 bN oE gN gE o4 fO fN).unmatchedOldSet →
      (DiffExportsOrd old new oldSigs newSigs o1 o2 bN oE gN gE o4 fO fN o6).Perm
        (DiffExportsOrd old new oldSigs newSigs o1 o2 bN oE gN gE o4 fO fN o6')) := by
  constructor
  · intro old new oldSigs newSigs
    exact
      let s0 := newDiffState old new oldSigs newSigs
      let s1 := s0.exactMatch
      let s2 := s1.changedPartA
      let s3 := s2.changedPartB
      let s4 := s3.renamed
      let s5 := s4.correlateMethods
      let s6 := s5.fuzzyMatch
      ⟨s0.unmatchedOldSet, s1.unmatchedOldSet, s2.unmatchedOldSet, s2.unmatchedNewSet,
       buildByName s2.unmatchedOldSet, s3.unmatchedOldSet, s3.unmatchedNewSet,
       groupBySig s3.oldByKey s3.unmatchedOldSet, s4.unmatchedOldSet,
       s5.unmatchedOldSet, s5.unmatchedNewSet, s6.unmatchedOldSet,
       ⟨List.Perm.refl _, List.Perm.refl _, List.Perm.refl _, List.Perm.refl _,
        List.Perm.refl _, List.Perm.refl _, List.Perm.refl _, List.Perm.refl _,
        List.Perm.refl _, List.Perm.refl _, List.Perm.refl _, List.Perm.refl _⟩,
       rfl⟩
  · intro old new oldSigs newSigs o1 o2 bN oE gN gE o4 fO fN o6 o6' h1 h2
    unfold DiffExportsOrd
    rw [leftoversOrd_changes, leftoversOrd_changes]
    exact List.Perm.append_left _ ((h1.trans h2.symm).map _)

/-- C7 witness: with all pass 1–5 orders fixed, the two admissible Pass 6
orders of the two-removed-symbols input give permutation-equal outputs. -/
theorem C7_determinism_relative_to_orders_witness :
    (DiffExportsOrd exC7Old exEmpty [] [] [] [] [] [] [] [] [] [] []
      [exC7KeyA, exC7KeyB]).Perm
    (DiffExportsOrd exC7Old exEmpty [] [] [] [] [] [] [] [] [] [] []
      [exC7KeyB, exC7KeyA]) :=
  C7_determinism_relative_to_orders.2 exC7Old exEmpty [] [] [] [] [] [] [] [] [] []
    [] _ _ (by decide) (by decide)

/-! ## Instrumented-engine bookkeeping: generic lemmas -/

theorem alookup_mem {κ ν : Type} [DecidableEq κ] (m : List (κ × ν)) (k : κ) (v : ν)
    (h : alookup m k = some v) : (k, v) ∈ m := by
  induction m with
  | nil => simp [alookup] at h
  | cons p m ih =>
    obtain ⟨k₀, v₀⟩ := p
    by_cases hk : k = k₀
    · subst hk
      simp only [alookup, if_true, eq_self_iff_true, Option.some.injEq] at h
      rw [← h]
      exact List.mem_cons_self _ _
    · simp only [alookup, if_neg hk] at h
      exact List.mem_cons_of_mem _ (ih h)

theorem mem_ainsert {κ ν : Type} [DecidableEq κ] (m : List (κ × ν)) (k : κ) (v : ν)
    (p : κ × ν) (h : p ∈ ainsert m k v) : p = (k, v) ∨ p ∈ m := by
  induction m with
  | nil => simpa [ainsert] using h
  | cons q m ih =>
    obtain ⟨k₀, v₀⟩ := q
    by_cases hk : k = k₀
    · subst hk
      simp only [ainsert, if_true, eq_self_iff_true] at h
      rcases List.mem_cons.mp h with h | h
      · exact Or.inl h
      · exact Or.inr (List.mem_cons_of_mem _ h)
    · simp only [ainsert, if_neg hk] at h
      rcases List.mem_cons.mp h with h | h
      · exact Or.inr (h ▸ List.mem_cons_self _ _)
      · rcases ih h with h | h
        · exact Or.inl h
        · exact Or.inr (List.mem_cons_of_mem _ h)

theorem ainsert_keys_nodup {κ ν : Type} [DecidableEq κ] (m : List (κ × ν)) (k : κ) (v : ν)
    (h : (m.map Prod.fst).Nodup) : ((ainsert m k v).map Prod.fst).Nodup := by
  induction m with
  | nil => simp [ainsert]
  | cons q m ih =>
    obtain ⟨k₀, v₀⟩ := q
    simp only [List.map_cons, List.nodup_cons] at h
    by_cases hk : k = k₀
    · subst hk
      simp only [ainsert, if_true, eq_self_iff_true, List.map_cons, List.nodup_cons]
      exact h
    · simp only [ainsert, if_neg hk, List.map_cons, List.nodup_cons]
      refine ⟨fun hmem => ?_, ih h.2⟩
      rcases List.mem_map.mp hmem with ⟨p, hp, hfst⟩
      rcases mem_ainsert m k v p hp with h' | h'
      · exact hk (by rw [← hfst, h'])
      · exact h.1 (hfst ▸ List.mem_map_of_mem Prod.fst h')

theorem alookup_isSome_of_mem_keys {κ ν : Type} [DecidableEq κ]
    (m : List (κ × ν)) (k : κ) (h : k ∈ m.map Prod.fst) : (alookup m k).isSome := by
  induction m with
  | nil => simp at h
  | cons q m ih =>
    obtain ⟨k₀, v₀⟩ := q
    by_cases hk : k = k₀
    · simp [alookup, hk]
    · simp only [List.map_cons, List.mem_cons] at h
      rcases h with h | h
      · exact absurd h hk
      · simpa [alookup, hk] using ih h

theorem foldl_inv_suffix {σ γ : Type} (P : σ → List γ → Prop) (step : σ → γ → σ) :
    ∀ (l : List γ) (s : σ), P s l →
      (∀ t x xs, P t (x :: xs) → P (step t x) xs) →
      P (l.foldl step s) [] := by
  intro l
  induction l with
  | nil => intro s h _; exact h
  | cons x xs ih => intro s h hstep; exact ih _ (hstep s x xs h) hstep

theorem foldl_sim {σ τ γ : Type} (f : σ → τ) (gS : σ → γ → σ) (gT : τ → γ → τ)
    (l : List γ) (s : σ) (h : ∀ t x, x ∈ l → f (gS t x) = gT (f t) x) :
    f (l.foldl gS s) = l.foldl gT (f s) := by
  induction l generalizing s with
  | nil => rfl
  | cons x xs ih =>
    rw [List.foldl_cons, List.foldl_cons, ← h s x (by simp)]
    exact ih _ (fun t y hy => h t y (by simp [hy]))

theorem tagsOld_append (l l' : List TaggedChange) :
    tagsOld (l ++ l') = tagsOld l ++ tagsOld l' := by
  simp [tagsOld]

theorem tagsNew_append (l l' : List TaggedChange) :
    tagsNew (l ++ l') = tagsNew l ++ tagsNew l' := by
  simp [tagsNew]

theorem tagsOld_single (c : Change) (ko : symbolKey) (kn : Option symbolKey) :
    tagsOld [(c, ko, kn)] = [ko] := rfl

theorem tagsNew_single_some (c : Change) (ko kn : symbolKey) :
    tagsNew [(c, ko, some kn)] = [kn] := rfl

theorem tagsNew_single_none (c : Change) (ko : symbolKey) :
    tagsNew [(c, ko, none)] = [] := rfl

theorem InvCore_markMatched (t : diffStateT) (a b : symbolKey) (h : InvCore t) :
    InvCore (t.markMatched a b) := by
  obtain ⟨h1, h2, h3, h4, h5, h6⟩ := h
  refine ⟨h1, h2, ?_, ?_, serase_nodup _ _ h5, serase_nodup _ _ h6⟩
  · exact fun k hk hmem => h3 k hk (serase_subset _ _ hmem)
  · exact fun k hk hmem => h4 k hk (serase_subset _ _ hmem)

theorem InvCore_emitMark (t : diffStateT) (c : Change) (ko kn : symbolKey)
    (hko : ko ∈ t.unmatchedOldSet) (hkn : kn ∈ t.unmatchedNewSet) (h : InvCore t) :
    InvCore ((t.emit c ko (some kn)).markMatched ko kn) := by
  obtain ⟨h1, h2, h3, h4, h5, h6⟩ := h
  have hko' : ko ∉ tagsOld t.tchanges := fun hmem => h3 ko hmem hko
  have hkn' : kn ∉ tagsNew t.tchanges := fun hmem => h4 kn hmem hkn
  simp only [InvCore, diffStateT.emit, diffStateT.markMatched, tagsOld_append,
    tagsNew_append, tagsOld_single, tagsNew_single_some]
  refine ⟨?_, ?_, ?_, ?_, serase_nodup _ _ h5, serase_nodup _ _ h6⟩
  · simp [List.nodup_append, h1, hko']
  · simp [List.nodup_append, h2, hkn']
  · intro k hk
    rcases List.mem_append.mp hk with hk | hk
    · exact fun hmem => h3 k hk (serase_subset _ _ hmem)
    · simp only [List.mem_singleton] at hk
      subst hk
      intro hmem
      exact ((mem_serase _ _ _).mp hmem).2 rfl
  · intro k hk
    rcases List.mem_append.mp hk with hk | hk
    · exact fun hmem => h4 k hk (serase_subset _ _ hmem)
    · simp only [List.mem_singleton] at hk
      subst hk
      intro hmem
      exact ((mem_serase _ _ _).mp hmem).2 rfl

theorem headD_mem {α : Type} (l : List α) (d : α) (h : l ≠ []) : l.headD d ∈ l := by
  cases l with
  | nil => exact absurd rfl h
  | cons x xs => simp [List.headD]

theorem buildByName_mem (L : List symbolKey) (p : nameKey × symbolKey)
    (h : p ∈ buildByName L) : p.2 ∈ L ∧ p.1 = nameKeyOf p.2 := by
  unfold buildByName at h
  refine @foldl_inv (List (nameKey × symbolKey)) symbolKey
    (fun m => ∀ q ∈ m, q.2 ∈ L ∧ q.1 = nameKeyOf q.2) _ L [] (by simp) ?_ p h
  intro m key hkey hm q hq
  rcases mem_ainsert _ _ _ q hq with hq | hq
  · subst hq
    exact ⟨hkey, rfl⟩
  · exact hm q hq

theorem buildByName_keys_nodup (L : List symbolKey) :
    ((buildByName L).map Prod.fst).Nodup := by
  unfold buildByName
  exact @foldl_inv (List (nameKey × symbolKey)) symbolKey
    (fun m => (m.map Prod.fst).Nodup) _ L [] (by simp)
    (fun m key _ hm => ainsert_keys_nodup _ _ _ hm)

theorem groupBySig_mem (B : List (symbolKey × Symbol)) (L : List symbolKey)
    (p : sigGroupKey × List symbolKey) (h : p ∈ groupBySig B L) :
    p.2 ≠ [] ∧ ∀ k ∈ p.2, k ∈ L ∧ sigGroupKeyOf B k = p.1 := by
  unfold groupBySig at h
  refine @foldl_inv (List (sigGroupKey × List symbolKey)) symbolKey
    (fun m => ∀ q ∈ m, q.2 ≠ [] ∧ ∀ k ∈ q.2, k ∈ L ∧ sigGroupKeyOf B k = q.1)
    _ L [] (by simp) ?_ p h
  intro m key hkey hm q hq
  dsimp only at hq
  rcases mem_ainsert _ _ _ q hq with hq | hq
  · subst hq
    refine ⟨by simp, ?_⟩
    intro k hk
    rcases List.mem_append.mp hk with hk | hk
    · cases halook : alookup m ⟨((alookup B key).getD default).signature,
        ((alookup B key).getD default).kind, ((alookup B key).getD default).package⟩ with
      | none => rw [halook] at hk; simp at hk
      | some prev =>
        rw [halook] at hk
        simp only [Option.getD_some] at hk
        exact (hm _ (alookup_mem _ _ _ halook)).2 k hk
    · simp only [List.mem_singleton] at hk
      subst hk
      exact ⟨hkey, rfl⟩
  · exact hm q hq

theorem groupBySig_keys_nodup (B : List (symbolKey × Symbol)) (L : List symbolKey) :
    ((groupBySig B L).map Prod.fst).Nodup := by
  unfold groupBySig
  exact @foldl_inv (List (sigGroupKey × List symbolKey)) symbolKey
    (fun m => (m.map Prod.fst).Nodup) _ L [] (by simp)
    (fun m key _ hm => ainsert_keys_nodup _ _ _ hm)

theorem InvCore_init (old new : Symbols) (oldSigs newSigs : FuncSigMap) :
    InvCore (newDiffStateT old new oldSigs newSigs) := by
  refine ⟨by simp [newDiffStateT, tagsOld], by simp [newDiffStateT, tagsNew],
    by simp [newDiffStateT, tagsOld], by simp [newDiffStateT, tagsNew],
    buildKeySet_nodup _, buildKeySet_nodup _⟩

theorem Aligned_init (old new : Symbols) (oldSigs newSigs : FuncSigMap) :
    Aligned (newDiffStateT old new oldSigs newSigs) := by
  intro k hk hex
  obtain ⟨ns, hns, _⟩ := hex
  have hsome : (alookup (buildByKey new.entries) k).isSome := by
    have : alookup (newDiffStateT old new oldSigs newSigs).newByKey k = some ns := hns
    rw [show (newDiffStateT old new oldSigs newSigs).newByKey = buildByKey new.entries
      from rfl] at this
    simp [this]
  exact (mem_buildKeySet _ _).mpr ((alookup_buildByKey_isSome _ _).mp hsome)

theorem invT_exactMatch (s : diffStateT) (h : InvCore s) (ha : Aligned s) :
    InvCore s.exactMatch ∧ Aligned s.exactMatch := by
  unfold diffStateT.exactMatch
  refine (fun H => ⟨H.1, H.2.2.2⟩)
    (@foldl_inv diffStateT symbolKey
      (fun t => InvCore t ∧ t.oldByKey = s.oldByKey ∧ t.newByKey = s.newByKey ∧ Aligned t)
      _ s.unmatchedOldSet s ⟨h, rfl, rfl, ha⟩ ?_)
  intro t key hkey hQ
  obtain ⟨hInv, hOld, hNew, hAl⟩ := hQ
  dsimp only
  cases hns : alookup t.newByKey key with
  | none =>
    simp only [hns]
    exact ⟨hInv, hOld, hNew, hAl⟩
  | some ns =>
    simp only [hns]
    split
    · next hcond =>
      refine ⟨InvCore_markMatched _ _ _ hInv, hOld, hNew, ?_⟩
      intro k hk hex
      obtain ⟨ns', hns', hsig⟩ := hex
      have hk' := (mem_serase _ _ _).mp hk
      have hmemN : k ∈ t.unmatchedNewSet := hAl k hk'.1 ⟨ns', hns', hsig⟩
      refine (mem_serase _ _ _).mpr ⟨hmemN, ?_⟩
      intro hkk
      subst hkk
      have : ns' = ns := Option.some.inj ((show alookup t.newByKey k = some ns' from hns').symm.trans hns)
      exact hsig (this ▸ hcond)
    · exact ⟨hInv, hOld, hNew, hAl⟩

theorem invT_changedPartA (s : diffStateT) (h : InvCore s) (ha : Aligned s) :
    InvCore s.changedPartA := by
  unfold diffStateT.changedPartA diffStateT.unmatchedOld
  refine (fun H => H.1)
    (@foldl_inv_suffix diffStateT symbolKey
      (fun t rem => InvCore t ∧ t.oldByKey = s.oldByKey ∧ t.newByKey = s.newByKey ∧
        (∀ k ∈ rem, k ∈ t.unmatchedOldSet ∧
          (∀ ns, alookup s.newByKey k = some ns →
            ((alookup s.oldByKey k).getD default).signature ≠ ns.signature →
            k ∈ t.unmatchedNewSet)) ∧
        rem.Nodup)
      _ s.unmatchedOldSet s
      ⟨h, rfl, rfl, fun k hk => ⟨hk, fun ns hns hsig => ha k hk ⟨ns, hns, hsig⟩⟩,
        h.2.2.2.2.1⟩ ?_)
  intro t x xs hP
  obtain ⟨hInv, hOld, hNew, hrem, hnd⟩ := hP
  have hndx := List.nodup_cons.mp hnd
  dsimp only
  rw [hOld, hNew]
  cases hns : alookup s.newByKey x with
  | none =>
    simp only [hns]
    exact ⟨hInv, hOld, hNew, fun k hk => hrem k (List.mem_cons_of_mem _ hk), hndx.2⟩
  | some ns =>
    simp only [hns]
    split
    · exact ⟨hInv, hOld, hNew, fun k hk => hrem k (List.mem_cons_of_mem _ hk), hndx.2⟩
    · next hsigne =>
      have hx := hrem x (List.mem_cons_self _ _)
      have hxo : x ∈ t.unmatchedOldSet := hx.1
      have hxn : x ∈ t.unmatchedNewSet := hx.2 ns hns hsigne
      refine ⟨InvCore_emitMark t _ x x hxo hxn hInv, hOld, hNew, ?_, hndx.2⟩
      intro k hk
      have hkx : k ≠ x := fun he => hndx.1 (he ▸ hk)
      have hk' := hrem k (List.mem_cons_of_mem _ hk)
      simp only [diffStateT.emit, diffStateT.markMatched]
      exact ⟨(mem_serase _ _ _).mpr ⟨hk'.1, hkx⟩,
        fun ns' hns' hsig' => (mem_serase _ _ _).mpr ⟨hk'.2 ns' hns' hsig', hkx⟩⟩

theorem invT_correlateMethodsT (s : diffStateT) (h : InvCore s) :
    InvCore s.correlateMethods := by
  unfold diffStateT.correlateMethods diffStateT.unmatchedOld
  split
  · exact h
  · refine (fun H => H.1)
      (@foldl_inv_suffix diffStateT symbolKey
        (fun t rem => InvCore t ∧ (∀ k ∈ rem, k ∈ t.unmatchedOldSet) ∧ rem.Nodup)
        _ s.unmatchedOldSet s ⟨h, fun k hk => hk, h.2.2.2.2.1⟩ ?_)
    intro t x xs hP
    obtain ⟨hInv, hrem, hnd⟩ := hP
    have hndx := List.nodup_cons.mp hnd
    dsimp only
    split
    · exact ⟨hInv, fun k hk => hrem k (List.mem_cons_of_mem _ hk), hndx.2⟩
    · split
      · exact ⟨hInv, fun k hk => hrem k (List.mem_cons_of_mem _ hk), hndx.2⟩
      · split
        · exact ⟨hInv, fun k hk => hrem k (List.mem_cons_of_mem _ hk), hndx.2⟩
        · split
          · next hmem =>
            refine ⟨InvCore_emitMark t _ x _ (hrem x (List.mem_cons_self _ _)) hmem hInv,
              ?_, hndx.2⟩
            intro k hk
            have hkx : k ≠ x := fun he => hndx.1 (he ▸ hk)
            simp only [diffStateT.emit, diffStateT.markMatched]
            exact (mem_serase _ _ _).mpr ⟨hrem k (List.mem_cons_of_mem _ hk), hkx⟩
          · exact ⟨hInv, fun k hk => hrem k (List.mem_cons_of_mem _ hk), hndx.2⟩

theorem invT_fuzzyMatchT (s : diffStateT) (h : InvCore s) : InvCore s.fuzzyMatch := by
  unfold diffStateT.fuzzyMatch
  dsimp only
  split
  · exact h
  · refine @foldl_inv diffStateT scoredPair (fun t => InvCore t) _ _ s h ?_
    intro t pair _ hInv
    dsimp only
    split
    · next hmemO =>
      split
      · next hmemN =>
        exact InvCore_emitMark t _ pair.oldKey pair.newKey hmemO hmemN hInv
      · exact hInv
    · exact hInv

theorem leftoversT_tchanges_aux (order : List symbolKey) : ∀ s : diffStateT,
    (order.foldl (fun t key =>
      let oldSym := (alookup t.oldByKey key).getD default
      t.emit { kind := ChangeKindRemoved, symbol := oldSym.name,
               package := oldSym.package, oldSignature := oldSym.signature,
               confidence := ConfidenceLow } key none) s).tchanges =
    s.tchanges ++ order.map (fun k =>
      (removedChange ((alookup s.oldByKey k).getD default), k, (none : Option symbolKey))) := by
  induction order with
  | nil => intro s; simp
  | cons k order ih =>
    intro s
    rw [List.foldl_cons, ih]
    simp [diffStateT.emit, removedChange]

theorem leftoversT_tchanges (s : diffStateT) :
    s.leftovers.tchanges = s.tchanges ++ s.unmatchedOldSet.map (fun k =>
      (removedChange ((alookup s.oldByKey k).getD default), k, (none : Option symbolKey))) :=
  leftoversT_tchanges_aux s.unmatchedOldSet s

theorem invT_changedPartB (s : diffStateT) (h : InvCore s) : InvCore s.changedPartB := by
  unfold diffStateT.changedPartB diffStateT.unmatchedOld diffStateT.unmatchedNew
  dsimp only
  refine (fun H => H.1)
    (@foldl_inv_suffix diffStateT (nameKey × symbolKey)
      (fun t rem => InvCore t ∧
        (∀ e ∈ rem, e.2 ∈ t.unmatchedOldSet) ∧
        (∀ e ∈ rem, ∀ nk, alookup (buildByName s.unmatchedNewSet) e.1 = some nk →
          nk ∈ t.unmatchedNewSet) ∧
        (rem.map Prod.fst).Nodup ∧
        (∀ e ∈ rem, e.1 = nameKeyOf e.2))
      _ (buildByName s.unmatchedOldSet) s
      ⟨h,
        fun e he => (buildByName_mem _ e he).1,
        fun e _ nk hnk =>
          (buildByName_mem _ (e.1, nk) (alookup_mem _ _ _ hnk)).1,
        buildByName_keys_nodup _,
        fun e he => (buildByName_mem _ e he).2⟩ ?_)
  intro t x xs hP
  obtain ⟨hInv, hrO, hrN, hnd, hnk⟩ := hP
  rw [List.map_cons] at hnd
  have hndx := List.nodup_cons.mp hnd
  cases hlook : alookup (buildByName s.unmatchedNewSet) x.1 with
  | none =>
    simp only [hlook]
    exact ⟨hInv, fun e he => hrO e (List.mem_cons_of_mem _ he),
      fun e he => hrN e (List.mem_cons_of_mem _ he), hndx.2,
      fun e he => hnk e (List.mem_cons_of_mem _ he)⟩
  | some nk =>
    simp only [hlook]
    split
    · exact ⟨hInv, fun e he => hrO e (List.mem_cons_of_mem _ he),
        fun e he => hrN e (List.mem_cons_of_mem _ he), hndx.2,
        fun e he => hnk e (List.mem_cons_of_mem _ he)⟩
    · have hxo : x.2 ∈ t.unmatchedOldSet := hrO x (List.mem_cons_self _ _)
      have hxn : nk ∈ t.unmatchedNewSet := hrN x (List.mem_cons_self _ _) nk hlook
      have hkeyne : ∀ e ∈ xs, e.1 ≠ x.1 := by
        intro e he heq
        exact hndx.1 (heq ▸ List.mem_map_of_mem Prod.fst he)
      refine ⟨InvCore_emitMark t _ x.2 nk hxo hxn hInv, ?_, ?_, hndx.2,
        fun e he => hnk e (List.mem_cons_of_mem _ he)⟩
      · intro e he
        have hne : e.2 ≠ x.2 := by
          intro heq
          exact hkeyne e he (by
            rw [hnk e (List.mem_cons_of_mem _ he), hnk x (List.mem_cons_self _ _), heq])
        simp only [diffStateT.emit, diffStateT.markMatched]
        exact (mem_serase _ _ _).mpr ⟨hrO e (List.mem_cons_of_mem _ he), hne⟩
      · intro e he nk' hnk'
        have hnkname : nameKeyOf nk' = e.1 :=
          ((buildByName_mem _ (e.1, nk') (alookup_mem _ _ _ hnk')).2).symm
        have hnkname' : nameKeyOf nk = x.1 :=
          ((buildByName_mem _ (x.1, nk) (alookup_mem _ _ _ hlook)).2).symm
        have hne : nk' ≠ nk := by
          intro heq
          exact hkeyne e he (by rw [← hnkname, heq, hnkname'])
        simp only [diffStateT.emit, diffStateT.markMatched]
        exact (mem_serase _ _ _).mpr ⟨hrN e (List.mem_cons_of_mem _ he) nk' hnk', hne⟩

theorem invT_renamedT (s : diffStateT) (h : InvCore s) : InvCore s.renamed := by
  unfold diffStateT.renamed diffStateT.unmatchedOld diffStateT.unmatchedNew
  dsimp only
  refine (fun H => H.1)
    (@foldl_inv_suffix diffStateT (sigGroupKey × List symbolKey)
      (fun t rem => InvCore t ∧
        (∀ e ∈ rem, ∀ k ∈ e.2, k ∈ t.unmatchedOldSet) ∧
        (∀ e ∈ rem, ∀ nks, alookup (groupBySig s.newByKey s.unmatchedNewSet) e.1 = some nks →
          ∀ k ∈ nks, k ∈ t.unmatchedNewSet) ∧
        (rem.map Prod.fst).Nodup ∧
        (∀ e ∈ rem, e.2 ≠ [] ∧ ∀ k ∈ e.2, sigGroupKeyOf s.oldByKey k = e.1))
      _ (groupBySig s.oldByKey s.unmatchedOldSet) s
      ⟨h,
        fun e he k hk => ((groupBySig_mem _ _ e he).2 k hk).1,
        fun e _ nks hnks k hk =>
          ((groupBySig_mem _ _ (e.1, nks) (alookup_mem _ _ _ hnks)).2 k hk).1,
        groupBySig_keys_nodup _ _,
        fun e he => ⟨(groupBySig_mem _ _ e he).1,
          fun k hk => ((groupBySig_mem _ _ e he).2 k hk).2⟩⟩ ?_)
  intro t x xs hP
  obtain ⟨hInv, hrO, hrN, hnd, hst⟩ := hP
  rw [List.map_cons] at hnd
  have hndx := List.nodup_cons.mp hnd
  have hrest : ∀ e ∈ xs, ∀ k ∈ e.2, k ∈ t.unmatchedOldSet :=
    fun e he => hrO e (List.mem_cons_of_mem _ he)
  have hrestN : ∀ e ∈ xs, ∀ nks,
      alookup (groupBySig s.newByKey s.unmatchedNewSet) e.1 = some nks →
      ∀ k ∈ nks, k ∈ t.unmatchedNewSet :=
    fun e he => hrN e (List.mem_cons_of_mem _ he)
  have hstx : ∀ e ∈ xs, e.2 ≠ [] ∧ ∀ k ∈ e.2, sigGroupKeyOf s.oldByKey k = e.1 :=
    fun e he => hst e (List.mem_cons_of_mem _ he)
  cases hnks : alookup (groupBySig s.newByKey s.unmatchedNewSet) x.1 with
  | none =>
    simp only [hnks]
    exact ⟨hInv, hrest, hrestN, hndx.2, hstx⟩
  | some nks =>
    simp only [hnks]
    split
    · exact ⟨hInv, hrest, hrestN, hndx.2, hstx⟩
    · split
      · exact ⟨hInv, hrest, hrestN, hndx.2, hstx⟩
      · have hx2ne : x.2 ≠ [] := (hst x (List.mem_cons_self _ _)).1
        have hko : x.2.headD default ∈ x.2 := headD_mem _ _ hx2ne
        have hkoO : x.2.headD default ∈ t.unmatchedOldSet :=
          hrO x (List.mem_cons_self _ _) _ hko
        have hnksA := groupBySig_mem s.newByKey s.unmatchedNewSet (x.1, nks)
          (alookup_mem _ _ _ hnks)
        have hknmem : nks.headD default ∈ nks := headD_mem _ _ hnksA.1
        have hknN : nks.headD default ∈ t.unmatchedNewSet :=
          hrN x (List.mem_cons_self _ _) nks hnks _ hknmem
        have hkeyne : ∀ e ∈ xs, e.1 ≠ x.1 := by
          intro e he heq
          exact hndx.1 (heq ▸ List.mem_map_of_mem Prod.fst he)
        have hInv' : ∀ c : Change, InvCore
            ((t.emit c (x.2.headD default) (some (nks.headD default))).markMatched
              (x.2.headD default) (nks.headD default)) :=
          fun c => InvCore_emitMark t c _ _ hkoO hknN hInv
        have hrO' : ∀ e ∈ xs, ∀ k ∈ e.2, k ∈
            (serase t.unmatchedOldSet (x.2.headD default)) := by
          intro e he k hk
          have hne : k ≠ x.2.headD default := by
            intro heq
            have h1 : sigGroupKeyOf s.oldByKey k = e.1 := (hstx e he).2 k hk
            have h2 : sigGroupKeyOf s.oldByKey (x.2.headD default) = x.1 :=
              (hst x (List.mem_cons_self _ _)).2 _ hko
            exact hkeyne e he (by rw [← h1, heq, h2])
          exact (mem_serase _ _ _).mpr ⟨hrest e he k hk, hne⟩
        have hrN' : ∀ e ∈ xs, ∀ nks',
            alookup (groupBySig s.newByKey s.unmatchedNewSet) e.1 = some nks' →
            ∀ k ∈ nks', k ∈ (serase t.unmatchedNewSet (nks.headD default)) := by
          intro e he nks' hnks' k hk
          have hne : k ≠ nks.headD default := by
            intro heq
            have h1 : sigGroupKeyOf s.newByKey k = e.1 :=
              ((groupBySig_mem _ _ (e.1, nks') (alookup_mem _ _ _ hnks')).2 k hk).2
            have h2 : sigGroupKeyOf s.newByKey (nks.headD default) = x.1 :=
              (hnksA.2 _ hknmem).2
            exact hkeyne e he (by rw [← h1, heq, h2])
          exact (mem_serase _ _ _).mpr ⟨hrestN e he nks' hnks' k hk, hne⟩
        split
        · exact ⟨hInv' _, hrO', hrN', hndx.2, hstx⟩
        · exact ⟨hInv' _, hrO', hrN', hndx.2, hstx⟩

/-! ## Tag erasure: the instrumented engine simulates the plain engine -/

theorem eraseT_oldByKey (s : diffStateT) : (eraseT s).oldByKey = s.oldByKey := rfl

theorem eraseT_newByKey (s : diffStateT) : (eraseT s).newByKey = s.newByKey := rfl

theorem eraseT_unmatchedOldSet (s : diffStateT) :
    (eraseT s).unmatchedOldSet = s.unmatchedOldSet := rfl

theorem eraseT_unmatchedNewSet (s : diffStateT) :
    (eraseT s).unmatchedNewSet = s.unmatchedNewSet := rfl

theorem eraseT_oldSigs (s : diffStateT) : (eraseT s).oldSigs = s.oldSigs := rfl

theorem eraseT_newSigs (s : diffStateT) : (eraseT s).newSigs = s.newSigs := rfl

theorem eraseT_typeRenames (s : diffStateT) : (eraseT s).typeRenames = s.typeRenames := rfl

theorem eraseT_changes (s : diffStateT) :
    (eraseT s).changes = s.tchanges.map (fun t => t.1) := rfl

theorem eraseT_markMatched (t : diffStateT) (a b : symbolKey) :
    eraseT (t.markMatched a b) = (eraseT t).markMatched a b := rfl

theorem eraseT_emit (t : diffStateT) (c : Change) (ko : symbolKey) (kn : Option symbolKey) :
    eraseT (t.emit c ko kn) = (eraseT t).emit c := by
  simp [eraseT, diffStateT.emit, diffState.emit]

theorem eraseT_setTypeRenames (t : diffStateT) (tr : List (String × String)) :
    eraseT { t with typeRenames := tr } = { eraseT t with typeRenames := tr } := rfl

theorem eraseT_newDiffStateT (old new : Symbols) (oldSigs newSigs : FuncSigMap) :
    eraseT (newDiffStateT old new oldSigs newSigs) = newDiffState old new oldSigs newSigs := rfl

theorem eraseT_exactMatch (s : diffStateT) :
    eraseT s.exactMatch = (eraseT s).exactMatch := by
  unfold diffStateT.exactMatch diffState.exactMatch
  simp only [eraseT_unmatchedOldSet]
  refine foldl_sim eraseT _ _ s.unmatchedOldSet s ?_
  intro t k _
  dsimp only
  simp only [eraseT_newByKey, eraseT_oldByKey]
  cases hns : alookup t.newByKey k with
  | none => simp only [hns]
  | some ns =>
    simp only [hns]
    split
    · exact eraseT_markMatched t k k
    · rfl

theorem eraseT_changedPartA (s : diffStateT) :
    eraseT s.changedPartA = (eraseT s).changedPartA := by
  unfold diffStateT.changedPartA diffState.changedPartA
  unfold diffStateT.unmatchedOld diffState.unmatchedOld
  simp only [eraseT_unmatchedOldSet]
  refine foldl_sim eraseT _ _ s.unmatchedOldSet s ?_
  intro t k _
  dsimp only
  simp only [eraseT_newByKey, eraseT_oldByKey]
  cases hns : alookup t.newByKey k with
  | none => simp only [hns]
  | some ns =>
    simp only [hns]
    split
    · rfl
    · rw [eraseT_markMatched, eraseT_emit]

theorem eraseT_changedPartB (s : diffStateT) :
    eraseT s.changedPartB = (eraseT s).changedPartB := by
  unfold diffStateT.changedPartB diffState.changedPartB
  unfold diffStateT.unmatchedOld diffState.unmatchedOld
  unfold diffStateT.unmatchedNew diffState.unmatchedNew
  simp only [eraseT_unmatchedOldSet, eraseT_unmatchedNewSet]
  refine foldl_sim eraseT _ _ (buildByName s.unmatchedOldSet) s ?_
  intro t e _
  dsimp only
  simp only [eraseT_newByKey, eraseT_oldByKey]
  cases hlook : alookup (buildByName s.unmatchedNewSet) e.1 with
  | none => simp only [hlook]
  | some nk =>
    simp only [hlook]
    split
    · rfl
    · rw [eraseT_markMatched, eraseT_emit]

theorem eraseT_changed (s : diffStateT) : eraseT s.changed = (eraseT s).changed := by
  unfold diffStateT.changed diffState.changed
  rw [eraseT_changedPartB, eraseT_changedPartA]

theorem eraseT_renamed (s : diffStateT) : eraseT s.renamed = (eraseT s).renamed := by
  unfold diffStateT.renamed diffState.renamed
  unfold diffStateT.unmatchedOld diffState.unmatchedOld
  unfold diffStateT.unmatchedNew diffState.unmatchedNew
  simp only [eraseT_unmatchedOldSet, eraseT_unmatchedNewSet, eraseT_oldByKey, eraseT_newByKey]
  refine foldl_sim eraseT _ _ (groupBySig s.oldByKey s.unmatchedOldSet) s ?_
  intro t e _
  dsimp only
  simp only [eraseT_oldByKey, eraseT_newByKey]
  cases hnks : alookup (groupBySig s.newByKey s.unmatchedNewSet) e.1 with
  | none => simp only [hnks]
  | some nks =>
    simp only [hnks]
    split
    · rfl
    · split
      · rfl
      · split
        · rw [eraseT_setTypeRenames, eraseT_markMatched, eraseT_emit]
          rfl
        · rw [eraseT_markMatched, eraseT_emit]

theorem eraseT_correlateMethods (s : diffStateT) :
    eraseT s.correlateMethods = (eraseT s).correlateMethods := by
  unfold diffStateT.correlateMethods diffState.correlateMethods
  unfold diffStateT.unmatchedOld diffState.unmatchedOld
  simp only [eraseT_typeRenames, eraseT_unmatchedOldSet]
  split
  · rfl
  · refine foldl_sim eraseT _ _ s.unmatchedOldSet s ?_
    intro t k _
    dsimp only
    simp only [eraseT_oldByKey, eraseT_newByKey, eraseT_typeRenames, eraseT_unmatchedNewSet]
    split
    · rfl
    · split
      · rfl
      · split
        · rfl
        · split
          · rw [eraseT_markMatched, eraseT_emit]
          · rfl

theorem fuzzyCandidatesT_eq (s : diffStateT) (a b : List symbolKey) :
    fuzzyCandidatesT s a b = fuzzyCandidates (eraseT s) a b := rfl

theorem eraseT_fuzzyMatch (s : diffStateT) :
    eraseT s.fuzzyMatch = (eraseT s).fuzzyMatch := by
  unfold diffStateT.fuzzyMatch diffState.fuzzyMatch
  unfold diffStateT.unmatchedOld diffState.unmatchedOld
  unfold diffStateT.unmatchedNew diffState.unmatchedNew
  dsimp only
  simp only [eraseT_unmatchedOldSet, eraseT_unmatchedNewSet, eraseT_oldSigs, eraseT_newSigs,
    ← fuzzyCandidatesT_eq]
  split
  · rfl
  · refine foldl_sim eraseT _ _ _ s ?_
    intro t pair _
    dsimp only
    simp only [eraseT_unmatchedOldSet, eraseT_unmatchedNewSet, eraseT_oldByKey, eraseT_newByKey]
    split
    · split
      · rw [eraseT_markMatched, eraseT_emit]
      · rfl
    · rfl

theorem eraseT_leftovers (s : diffStateT) :
    eraseT s.leftovers = (eraseT s).leftovers := by
  unfold diffStateT.leftovers diffState.leftovers
  simp only [eraseT_unmatchedOldSet]
  refine foldl_sim eraseT _ _ s.unmatchedOldSet s ?_
  intro t k _
  dsimp only
  simp only [eraseT_oldByKey]
  exact eraseT_emit t _ k none

theorem eraseT_DiffExports (old new : Symbols) (oldSigs newSigs : FuncSigMap) :
    (DiffExportsTagged old new oldSigs newSigs).map (fun t => t.1) =
      DiffExports old new oldSigs newSigs := by
  unfold DiffExportsTagged DiffExports
  rw [← eraseT_changes, eraseT_leftovers, eraseT_fuzzyMatch, eraseT_correlateMethods,
    eraseT_renamed, eraseT_changed, eraseT_exactMatch, eraseT_newDiffStateT]

theorem tagsOld_map_removed (B : List (symbolKey × Symbol)) (L : List symbolKey) :
    tagsOld (L.map (fun k =>
      (removedChange ((alookup B k).getD default), k, (none : Option symbolKey)))) = L := by
  unfold tagsOld
  rw [List.map_map]
  exact List.map_id L

theorem tagsNew_map_removed (B : List (symbolKey × Symbol)) (L : List symbolKey) :
    tagsNew (L.map (fun k =>
      (removedChange ((alookup B k).getD default), k, (none : Option symbolKey)))) = [] := by
  simp [tagsNew, List.filterMap_map]

/-- C6: the at-most-one-match invariant.  Running the engine with each
emitted change tagged by the old key (and, when a new symbol is matched,
the new key) it consumed: (1) erasing the tags gives exactly the plain
`DiffExports` output, so the tags describe the real run; (2) the consumed
old keys are pairwise distinct — no old symbol contributes to two emitted
changes; (3) the consumed new keys are pairwise distinct — no new symbol
is matched by two emitted changes (in particular no two renames point at
the same new symbol).  Keys consumed by silent Pass 1 matches leave the
unmatched sets and are never emitted afterwards. -/
theorem C6_at_most_one_match (old new : Symbols) (oldSigs newSigs : FuncSigMap) :
    (DiffExportsTagged old new oldSigs newSigs).map (fun t => t.1) =
      DiffExports old new oldSigs newSigs ∧
    (tagsOld (DiffExportsTagged old new oldSigs newSigs)).Nodup ∧
    (tagsNew (DiffExportsTagged old new oldSigs newSigs)).Nodup := by
  refine ⟨eraseT_DiffExports old new oldSigs newSigs, ?_, ?_⟩ <;>
  · have h1 := invT_exactMatch (newDiffStateT old new oldSigs newSigs)
      (InvCore_init old new oldSigs newSigs) (Aligned_init old new oldSigs newSigs)
    have h2A := invT_changedPartA _ h1.1 h1.2
    have h2B := invT_changedPartB _ h2A
    have h3 := invT_renamedT _ h2B
    have h4 := invT_correlateMethodsT _ h3
    have h5 := invT_fuzzyMatchT _ h4
    unfold DiffExportsTagged
    rw [leftoversT_tchanges]
    first
    | · rw [tagsOld_append, tagsOld_map_removed]
        rw [List.nodup_append]
        exact ⟨h5.1, h5.2.2.2.2.1, fun k hk => h5.2.2.1 k hk⟩
    | · rw [tagsNew_append, tagsNew_map_removed, List.append_nil]
        exact h5.2.1

end Emenda
